import Mathlib

/-!
# cppBKTree: a Burkhard–Keller tree with a string edit distance

Shallow embedding of `BKNode.h` and `BKTree.h`.

* `BKNode<T>` owns a `value` and a `std::map<int, BKNode<T>*>` of children.  The map is
  embedded as `ChildMap`, the sequence of its entries in ascending key order (the order in which
  a `std::map<int, _>` stores them).
* `int` is embedded in two ways.  `BKNode.find32` and `BKTree.find32` are the search as the
  source runs it: `dist - threshold`, `dist + threshold` and the loop counter are 32-bit
  `int` values, and a result that does not fit is reported as an overflow.  `BKNode.find`
  and `BKTree.find` are the same search over the unbounded integers; the two agree whenever
  every `dist - threshold` and `dist + threshold` fits and `dist + threshold < INT_MAX`
  (`BKNode.find32_eq_find`).  Statements that depend on the size of the threshold are
  made about `find32`.
* `std::string` is embedded as a list of characters.  `BKNode<std::string>::distance` only
  compares characters for equality, so the character type is a parameter with decidable
  equality; concrete strings are written as `"kitten".toList`.
* `BKNode<T>::distance` is only defined in the source for `T = std::string`; the generic
  `insert` and `find` therefore take the distance function `d` as a parameter, called as
  `d value rhs` (the receiver's value first, as in `this->distance(rhs)`).
-/

namespace BK

/-! ## The distance matrix of `BKNode<std::string>::distance` -/

/-- The `Tmatrix` of the source (`std::vector<std::vector<int>>`), as a total function from the
row and column index to the stored `int`.  All reads and writes of the source are in bounds. -/
abbrev Tmatrix := Nat → Nat → Int

/-- The assignment `matrix[i][j] = v`. -/
def Tmatrix.set (M : Tmatrix) (i j : Nat) (v : Int) : Tmatrix :=
  fun a b => if a = i ∧ b = j then v else M a b

section Distance

variable {α : Type} [DecidableEq α]

/-- Steps 5, 6 and 6A of the source for the cell `(i, j)`: the value assigned to
`matrix[i][j]`, computed from the cells filled so far. -/
def cellValue (source target : List α) (M : Tmatrix) (i j : Nat) : Int :=
  let s_i := source[i - 1]?
  let t_j := target[j - 1]?
  let cost : Int := if s_i = t_j then 0 else 1
  let above := M (i - 1) j
  let left := M i (j - 1)
  let diag := M (i - 1) (j - 1)
  let cell := min (above + 1) (min (left + 1) (diag + cost))
  if i > 2 ∧ j > 2 then
    let trans := M (i - 2) (j - 2) + 1
    let trans := if source[i - 2]? ≠ t_j then trans + 1 else trans
    let trans := if s_i ≠ target[j - 2]? then trans + 1 else trans
    if cell > trans then trans else cell
  else cell

/-- The inner loop `for (int j = 1; j <= m; j++)` of Step 4 for the row `i`, run up to the
column given as the second argument. -/
def fillRow (source target : List α) (i : Nat) : Nat → Tmatrix → Tmatrix
  | 0, M => M
  | j + 1, M =>
    let M1 := fillRow source target i j M
    M1.set i (j + 1) (cellValue source target M1 i (j + 1))

/-- The outer loop `for (int i = 1; i <= n; i++)` of Step 3, run up to the row given as the
second argument; `m` is the length of the target. -/
def fillRows (source target : List α) (m : Nat) : Nat → Tmatrix → Tmatrix
  | 0, M => M
  | i + 1, M => fillRow source target (i + 1) m (fillRows source target m i M)

/-- Step 2, first loop: `for (int i = 0; i <= n; i++) matrix[i][0] = i`. -/
def initCol : Nat → Tmatrix → Tmatrix
  | 0, M => M.set 0 0 0
  | i + 1, M => (initCol i M).set (i + 1) 0 ((i + 1 : Nat) : Int)

/-- Step 2, second loop: `for (int j = 0; j <= m; j++) matrix[0][j] = j`. -/
def initRow : Nat → Tmatrix → Tmatrix
  | 0, M => M.set 0 0 0
  | j + 1, M => (initRow j M).set 0 (j + 1) ((j + 1 : Nat) : Int)

/-- The matrix at Step 7, after all loops have run. -/
def finalMatrix (source target : List α) : Tmatrix :=
  let n := source.length
  let m := target.length
  let M : Tmatrix := fun _ _ => 0
  let M := initCol n M
  let M := initRow m M
  fillRows source target m n M

/-- `BKNode<std::string>::distance`, with `source` the value of the receiver and `target` the
value of the argument. -/
def distance (source target : List α) : Int :=
  let n := source.length
  let m := target.length
  if n = 0 then (m : Int)
  else if m = 0 then (n : Int)
  else finalMatrix source target n m

end Distance

/-! ## Nodes and trees -/

mutual
/-- A `BKNode<T>`: its `value` and its `children`. -/
inductive BKNode (T : Type) where
  | mk (value : T) (children : ChildMap T)
/-- The `std::map<int, BKNode<T>*>` of a node: its entries in ascending key order. -/
inductive ChildMap (T : Type) where
  | nil
  | cons (key : Int) (child : BKNode T) (rest : ChildMap T)
end

section Tree

variable {T : Type}

/-- `BKNode<T>::BKNode(const T&)`: a node without children. -/
def BKNode.leaf (newValue : T) : BKNode T := BKNode.mk newValue ChildMap.nil

/-- `BKNode<T>::get`. -/
def BKNode.get : BKNode T → T
  | BKNode.mk value _ => value

/-- The children of a node. -/
def BKNode.children : BKNode T → ChildMap T
  | BKNode.mk _ children => children

/-- `children.count(i)` together with `children[i]`: the child stored under the key `i`. -/
def ChildMap.lookup : ChildMap T → Int → Option (BKNode T)
  | ChildMap.nil, _ => none
  | ChildMap.cons key child rest, i => if i = key then some child else rest.lookup i

mutual
/-- `BKNode<T>::insert`. -/
def BKNode.insert (d : T → T → Int) : BKNode T → T → BKNode T
  | BKNode.mk value children, rhs =>
    let dist := d value rhs
    if dist ≠ 0 then BKNode.mk value (ChildMap.insertAt d children dist rhs)
    else BKNode.mk value children
/-- The body of `if (dist != 0)` in `BKNode<T>::insert`, on the ordered map: the child under
the key `dist` receives `rhs` when there is one, and otherwise a new node holding `rhs` is
stored under `dist`, at its place in the key order. -/
def ChildMap.insertAt (d : T → T → Int) : ChildMap T → Int → T → ChildMap T
  | ChildMap.nil, dist, rhs => ChildMap.cons dist (BKNode.mk rhs ChildMap.nil) ChildMap.nil
  | ChildMap.cons key child rest, dist, rhs =>
    if dist = key then ChildMap.cons key (BKNode.insert d child rhs) rest
    else if dist < key then
      ChildMap.cons dist (BKNode.mk rhs ChildMap.nil) (ChildMap.cons key child rest)
    else ChildMap.cons key child (ChildMap.insertAt d rest dist rhs)
end

mutual
/-- `BKNode<T>::find`. -/
def BKNode.find (d : T → T → Int) : BKNode T → T → Int → List T
  | BKNode.mk value children, rhs, threshold =>
    let dist := d value rhs
    let results := if dist ≤ threshold then [value] else []
    let dmin := dist - threshold
    let dmax := dist + threshold
    results ++ ChildMap.findRange d children rhs threshold dmin dmax
/-- The loop `for (int i = dmin; i <= dmax; i++)` of `BKNode<T>::find`: the results of the
children whose key lies in `[dmin, dmax]`, in ascending key order. -/
def ChildMap.findRange (d : T → T → Int) : ChildMap T → T → Int → Int → Int → List T
  | ChildMap.nil, _, _, _, _ => []
  | ChildMap.cons key child rest, rhs, threshold, dmin, dmax =>
    (if dmin ≤ key ∧ key ≤ dmax then BKNode.find d child rhs threshold else [])
      ++ ChildMap.findRange d rest rhs threshold dmin dmax
end

/-- The loop `for (int i = dmin; i <= dmax; i++)` of `BKNode<T>::find` as it is written,
with the number of iterations left and the current value of `i`: each `i` is looked up with
`children.count(i)` and the results of `children[i]` are appended. -/
def ChildMap.findLoop (d : T → T → Int) (children : ChildMap T) (rhs : T) (threshold : Int) :
    Nat → Int → List T
  | 0, _ => []
  | count + 1, i =>
    (match ChildMap.lookup children i with
      | some child => BKNode.find d child rhs threshold
      | none => [])
      ++ ChildMap.findLoop d children rhs threshold count (i + 1)

/-- A `BKTree<T>`: the root pointer (`none` for the null pointer) and `node_count`. -/
structure BKTree (T : Type) where
  root : Option (BKNode T)
  node_count : Int

/-- `BKTree<T>::BKTree()`. -/
def BKTree.empty : BKTree T := { root := none, node_count := 0 }

/-- `BKTree<T>::insert`. -/
def BKTree.insert (d : T → T → Int) (t : BKTree T) (value : T) : BKTree T :=
  { node_count := t.node_count + 1
    root :=
      match t.root with
      | none => some (BKNode.leaf value)
      | some r => some (BKNode.insert d r value) }

/-- `BKTree<T>::find`. -/
def BKTree.find (d : T → T → Int) (t : BKTree T) (rhs : T) (threshold : Int) : List T :=
  match t.root with
  | none => []
  | some r => BKNode.find d r rhs threshold

/-- `BKTree<T>::size`. -/
def BKTree.size (t : BKTree T) : Int := t.node_count

/-- The tree obtained from the empty tree by inserting the elements of `S` from first to
last. -/
def BKTree.build (d : T → T → Int) (S : List T) : BKTree T :=
  S.foldl (BKTree.insert d) BKTree.empty

end Tree

/-- The shipped tree `BKTree<std::string>`, built from a list of strings. -/
def stringTree {α : Type} [DecidableEq α] (S : List (List α)) : BKTree (List α) :=
  BKTree.build distance S

/-! ## Specification vocabulary -/

section TreeSpec
variable {T : Type}

mutual
/-- The values stored in a subtree: the node first, then its children in key order. -/
def BKNode.values : BKNode T → List T
  | BKNode.mk value children => value :: ChildMap.values children
/-- The values stored in the subtrees of a child map. -/
def ChildMap.values : ChildMap T → List T
  | ChildMap.nil => []
  | ChildMap.cons _ child rest => BKNode.values child ++ ChildMap.values rest
end

/-- The keys of a child map, in stored order. -/
def ChildMap.keys : ChildMap T → List Int
  | ChildMap.nil => []
  | ChildMap.cons key _ rest => key :: ChildMap.keys rest

mutual
/-- The representation invariant of `std::map`, at every node of a subtree: keys are stored
in strictly ascending order (so no key occurs twice). -/
def BKNode.Ordered : BKNode T → Prop
  | BKNode.mk _ children => ChildMap.Ordered children
/-- The keys of a child map are strictly ascending, and so are those of every map below. -/
def ChildMap.Ordered : ChildMap T → Prop
  | ChildMap.nil => True
  | ChildMap.cons key child rest =>
    (∀ k ∈ ChildMap.keys rest, key < k) ∧ BKNode.Ordered child ∧ ChildMap.Ordered rest
end

mutual
/-- The bucket invariant at every node of a subtree: no child key is `0`, and every value
stored below the child under key `k` is at distance exactly `k` from the node's value. -/
def BKNode.Bucketed (d : T → T → Int) : BKNode T → Prop
  | BKNode.mk value children => ChildMap.Bucketed d children value
/-- The bucket invariant for the children of a node holding `value`. -/
def ChildMap.Bucketed (d : T → T → Int) : ChildMap T → T → Prop
  | ChildMap.nil, _ => True
  | ChildMap.cons key child rest, value =>
    key ≠ 0 ∧ (∀ u ∈ BKNode.values child, d value u = key) ∧ BKNode.Bucketed d child
      ∧ ChildMap.Bucketed d rest value
end

/-- The values stored in a tree. -/
def BKTree.values (t : BKTree T) : List T :=
  match t.root with
  | none => []
  | some r => BKNode.values r

/-- The invariant of the trees reachable by `insert`: below the root, the child maps are
ordered and satisfy the bucket invariant for `d`. -/
def BKTree.Inv (d : T → T → Int) (t : BKTree T) : Prop :=
  match t.root with
  | none => True
  | some r => BKNode.Ordered r ∧ BKNode.Bucketed d r

end TreeSpec


/-- A metric on the integers, `|a - b|`, used to instantiate the generic tree. -/
def absDist (a b : Int) : Int := if a ≤ b then b - a else a - b

/-! ## Keys, height and the bucket invariant on direct children -/

section TreeSpec2
variable {T : Type}

mutual
/-- The bucket invariant as the data model states it, at every node of a subtree: a child
stored under the key `k` holds a value at distance exactly `k` from the node's value, and
`k` is not `0`. -/
def BKNode.KeysExact (d : T → T → Int) : BKNode T → Prop
  | BKNode.mk value children => ChildMap.KeysExact d children value
/-- The direct-child bucket invariant for the children of a node holding `value`. -/
def ChildMap.KeysExact (d : T → T → Int) : ChildMap T → T → Prop
  | ChildMap.nil, _ => True
  | ChildMap.cons key child rest, value =>
    key = d value (BKNode.get child) ∧ key ≠ 0 ∧ BKNode.KeysExact d child
      ∧ ChildMap.KeysExact d rest value
end

mutual
/-- All child keys occurring in a subtree, at every depth. -/
def BKNode.allKeys : BKNode T → List Int
  | BKNode.mk _ children => ChildMap.allKeys children
/-- All child keys occurring in a child map and in the subtrees below it. -/
def ChildMap.allKeys : ChildMap T → List Int
  | ChildMap.nil => []
  | ChildMap.cons key child rest => key :: (BKNode.allKeys child ++ ChildMap.allKeys rest)
end

mutual
/-- The number of nodes on the longest path from a node down to a leaf. -/
def BKNode.height : BKNode T → Nat
  | BKNode.mk _ children => ChildMap.height children + 1
/-- The largest height among the children of a map. -/
def ChildMap.height : ChildMap T → Nat
  | ChildMap.nil => 0
  | ChildMap.cons _ child rest => max (BKNode.height child) (ChildMap.height rest)
end

/-- The direct-child bucket invariant of a tree: it holds below the root, if there is one. -/
def BKTree.KeysExact (d : T → T → Int) (t : BKTree T) : Prop :=
  match t.root with
  | none => True
  | some r => BKNode.KeysExact d r

/-- All child keys occurring in a tree. -/
def BKTree.allKeys (t : BKTree T) : List Int :=
  match t.root with
  | none => []
  | some r => BKNode.allKeys r

end TreeSpec2

/-! ## The range search in 32-bit `int` arithmetic -/

/-- The largest value of a 32-bit signed `int`. -/
def INT_MAX : Int := 2147483647

/-- The smallest value of a 32-bit signed `int`. -/
def INT_MIN : Int := -2147483648

/-- The outcome of running code whose `int` arithmetic is checked: a result, a signed
overflow (a value that does not fit a 32-bit `int`), or the step budget running out. -/
inductive Outcome (R : Type) where
  | done (result : R)
  | overflow
  | outOfFuel
  deriving DecidableEq

/-- An `int` result: the value itself when a 32-bit signed `int` can hold it. -/
def checkedInt (x : Int) : Outcome Int :=
  if INT_MIN ≤ x ∧ x ≤ INT_MAX then Outcome.done x else Outcome.overflow

section Find32
variable {T : Type}

/-- The loop `for (int i = dmin; i <= dmax; i++)` with `i` a 32-bit `int`: `body i` stands
for the results of `children[i]` (empty when `children.count(i)` is `0`), appended to
`results`; the increment `i++` is checked.  The first argument bounds the number of times the
loop condition is evaluated. -/
def forLoop32 (body : Int → Outcome (List T)) (dmax : Int) :
    Nat → Int → List T → Outcome (List T)
  | 0, _, _ => Outcome.outOfFuel
  | fuel + 1, i, results =>
    if i ≤ dmax then
      match body i with
      | Outcome.done part =>
        match checkedInt (i + 1) with
        | Outcome.done i1 => forLoop32 body dmax fuel i1 (results ++ part)
        | Outcome.overflow => Outcome.overflow
        | Outcome.outOfFuel => Outcome.outOfFuel
      | Outcome.overflow => Outcome.overflow
      | Outcome.outOfFuel => Outcome.outOfFuel
    else Outcome.done results

/-- `BKNode<T>::find` with `dmin`, `dmax` and the loop counter computed in 32-bit `int`.
The first argument bounds both the depth of the recursion and the length of each loop. -/
def BKNode.find32 (d : T → T → Int) : Nat → BKNode T → T → Int → Outcome (List T)
  | 0, _, _, _ => Outcome.outOfFuel
  | fuel + 1, BKNode.mk value children, rhs, threshold =>
    let dist := d value rhs
    let results := if dist ≤ threshold then [value] else []
    match checkedInt (dist - threshold) with
    | Outcome.done dmin =>
      match checkedInt (dist + threshold) with
      | Outcome.done dmax =>
        forLoop32
          (fun i =>
            match ChildMap.lookup children i with
            | some child => BKNode.find32 d fuel child rhs threshold
            | none => Outcome.done [])
          dmax fuel dmin results
      | Outcome.overflow => Outcome.overflow
      | Outcome.outOfFuel => Outcome.outOfFuel
    | Outcome.overflow => Outcome.overflow
    | Outcome.outOfFuel => Outcome.outOfFuel

/-- `BKTree<T>::find` with the arithmetic of `BKNode<T>::find` in 32-bit `int`: the empty
vector for a null root, without any arithmetic. -/
def BKTree.find32 (d : T → T → Int) (fuel : Nat) (t : BKTree T) (rhs : T) (threshold : Int) :
    Outcome (List T) :=
  match t.root with
  | none => Outcome.done []
  | some r => BKNode.find32 d fuel r rhs threshold

/-- The height of a tree: `0` for the empty tree. -/
def BKTree.height (t : BKTree T) : Nat :=
  match t.root with
  | none => 0
  | some r => BKNode.height r

/-- The child maps of a tree are in key order, as those of a `std::map` are. -/
def BKTree.Ordered (t : BKTree T) : Prop :=
  match t.root with
  | none => True
  | some r => BKNode.Ordered r

/-- For each of the values `vs`, with `dist` its distance to `q`: `dist - threshold` and
`dist + threshold` fit a 32-bit `int`, and `dist + threshold` is below `INT_MAX`. -/
def Fits32 (d : T → T → Int) (q : T) (threshold : Int) (vs : List T) : Prop :=
  ∀ v ∈ vs, INT_MIN ≤ d v q - threshold ∧ d v q - threshold ≤ INT_MAX
    ∧ INT_MIN ≤ d v q + threshold ∧ d v q + threshold < INT_MAX

end Find32

/-! ## The distance matrix: what the loops compute -/

section DistanceLemmas
variable {α : Type} [DecidableEq α]

theorem Tmatrix.set_apply (M : Tmatrix) (i j : Nat) (v : Int) (a b : Nat) :
    M.set i j v a b = if a = i ∧ b = j then v else M a b := rfl

theorem cellValue_congr (source target : List α) (M N : Tmatrix) (i j : Nat)
    (h1 : M (i - 1) j = N (i - 1) j) (h2 : M i (j - 1) = N i (j - 1))
    (h3 : M (i - 1) (j - 1) = N (i - 1) (j - 1)) (h4 : M (i - 2) (j - 2) = N (i - 2) (j - 2)) :
    cellValue source target M i j = cellValue source target N i j := by
  unfold cellValue
  simp only [h1, h2, h3, h4]

theorem initCol_apply (n : Nat) (M : Tmatrix) (a b : Nat) :
    initCol n M a b = if b = 0 ∧ a ≤ n then (a : Int) else M a b := by
  induction n with
  | zero =>
    simp only [initCol, Tmatrix.set_apply]
    by_cases h : a = 0 ∧ b = 0
    · have h2 : b = 0 ∧ a ≤ 0 := by omega
      rw [if_pos h, if_pos h2, h.1]; rfl
    · have h2 : ¬ (b = 0 ∧ a ≤ 0) := by omega
      rw [if_neg h, if_neg h2]
  | succ n ih =>
    simp only [initCol, Tmatrix.set_apply, ih]
    by_cases h : a = n + 1 ∧ b = 0
    · have h2 : b = 0 ∧ a ≤ n + 1 := by omega
      rw [if_pos h, if_pos h2, h.1]
    · rw [if_neg h]
      by_cases h2 : b = 0 ∧ a ≤ n
      · have h3 : b = 0 ∧ a ≤ n + 1 := by omega
        rw [if_pos h2, if_pos h3]
      · have h3 : ¬ (b = 0 ∧ a ≤ n + 1) := by omega
        rw [if_neg h2, if_neg h3]

theorem initRow_apply (m : Nat) (M : Tmatrix) (a b : Nat) :
    initRow m M a b = if a = 0 ∧ b ≤ m then (b : Int) else M a b := by
  induction m with
  | zero =>
    simp only [initRow, Tmatrix.set_apply]
    by_cases h : a = 0 ∧ b = 0
    · have h2 : a = 0 ∧ b ≤ 0 := by omega
      rw [if_pos h, if_pos h2, h.2]; rfl
    · have h2 : ¬ (a = 0 ∧ b ≤ 0) := by omega
      rw [if_neg h, if_neg h2]
  | succ m ih =>
    simp only [initRow, Tmatrix.set_apply, ih]
    by_cases h : a = 0 ∧ b = m + 1
    · have h2 : a = 0 ∧ b ≤ m + 1 := by omega
      rw [if_pos h, if_pos h2, h.2]
    · rw [if_neg h]
      by_cases h2 : a = 0 ∧ b ≤ m
      · have h3 : a = 0 ∧ b ≤ m + 1 := by omega
        rw [if_pos h2, if_pos h3]
      · have h3 : ¬ (a = 0 ∧ b ≤ m + 1) := by omega
        rw [if_neg h2, if_neg h3]

/-- The inner loop for row `i` only writes the cells `(i, 1), …, (i, j)`. -/
theorem fillRow_other (source target : List α) (i j : Nat) (M : Tmatrix) (a b : Nat)
    (h : a ≠ i ∨ b = 0 ∨ j < b) : fillRow source target i j M a b = M a b := by
  induction j with
  | zero => rfl
  | succ j ih =>
    simp only [fillRow, Tmatrix.set_apply]
    have hne : ¬ (a = i ∧ b = j + 1) := by omega
    rw [if_neg hne]
    exact ih (by omega)

/-- After the inner loop for row `i ≥ 1`, each written cell holds the value of Steps 5–6A
computed from the matrix as it stands at the end of the loop. -/
theorem fillRow_cell (source target : List α) (i j : Nat) (M : Tmatrix) (hi : 1 ≤ i) (b : Nat)
    (hb1 : 1 ≤ b) (hbj : b ≤ j) :
    fillRow source target i j M i b
      = cellValue source target (fillRow source target i j M) i b := by
  induction j with
  | zero => omega
  | succ j ih =>
    have hstep : ∀ a c, ¬ (a = i ∧ c = j + 1) →
        fillRow source target i (j + 1) M a c = fillRow source target i j M a c := by
      intro a c hac
      simp only [fillRow, Tmatrix.set_apply]
      rw [if_neg hac]
    have hcongr : cellValue source target (fillRow source target i (j + 1) M) i b
        = cellValue source target (fillRow source target i j M) i b := by
      apply cellValue_congr <;> apply hstep <;> omega
    rw [hcongr]
    by_cases hb : b = j + 1
    · subst hb
      simp only [fillRow, Tmatrix.set_apply]
      simp
    · rw [hstep i b (by omega)]
      exact ih (by omega)

theorem fillRows_other (source target : List α) (m i : Nat) (M : Tmatrix) (a b : Nat)
    (h : i < a ∨ a = 0 ∨ b = 0 ∨ m < b) : fillRows source target m i M a b = M a b := by
  induction i with
  | zero => rfl
  | succ i ih =>
    simp only [fillRows]
    by_cases ha : a = i + 1
    · subst ha
      rw [fillRow_other _ _ _ _ _ _ _ (by omega)]
      exact ih (by omega)
    · rw [fillRow_other _ _ _ _ _ _ _ (Or.inl ha)]
      exact ih (by omega)

theorem fillRows_cell (source target : List α) (m i : Nat) (M : Tmatrix) (a b : Nat)
    (ha1 : 1 ≤ a) (hai : a ≤ i) (hb1 : 1 ≤ b) (hbm : b ≤ m) :
    fillRows source target m i M a b
      = cellValue source target (fillRows source target m i M) a b := by
  induction i with
  | zero => omega
  | succ i ih =>
    simp only [fillRows]
    by_cases ha : a = i + 1
    · subst ha
      exact fillRow_cell source target (i + 1) m _ (by omega) b hb1 hbm
    · have hrow : ∀ a' c, a' ≤ a →
          fillRow source target (i + 1) m (fillRows source target m i M) a' c
            = fillRows source target m i M a' c := by
        intro a' c ha'
        exact fillRow_other _ _ _ _ _ _ _ (Or.inl (by omega))
      have hcongr : cellValue source target
            (fillRow source target (i + 1) m (fillRows source target m i M)) a b
          = cellValue source target (fillRows source target m i M) a b := by
        apply cellValue_congr <;> apply hrow <;> omega
      rw [hcongr, hrow a b (le_refl a)]
      exact ih (by omega)


theorem finalMatrix_col (source target : List α) (i : Nat) (hi : i ≤ source.length) :
    finalMatrix source target i 0 = (i : Int) := by
  unfold finalMatrix
  rw [fillRows_other _ _ _ _ _ _ _ (by omega), initRow_apply, initCol_apply]
  by_cases h : i = 0
  · subst h; simp
  · have h2 : ¬ (i = 0 ∧ 0 ≤ target.length) := by omega
    rw [if_neg h2, if_pos ⟨rfl, hi⟩]

theorem finalMatrix_row (source target : List α) (j : Nat) (hj : j ≤ target.length) :
    finalMatrix source target 0 j = (j : Int) := by
  unfold finalMatrix
  rw [fillRows_other _ _ _ _ _ _ _ (by omega), initRow_apply, if_pos ⟨rfl, hj⟩]

/-- Every inner cell of the final matrix satisfies the recurrence of Steps 5–6A. -/
theorem finalMatrix_cell (source target : List α) (i j : Nat) (hi1 : 1 ≤ i)
    (hin : i ≤ source.length) (hj1 : 1 ≤ j) (hjm : j ≤ target.length) :
    finalMatrix source target i j
      = cellValue source target (finalMatrix source target) i j := by
  unfold finalMatrix
  exact fillRows_cell source target _ _ _ i j hi1 hin hj1 hjm

/-- The value of Steps 5–6A does not change when the roles of the two strings are exchanged:
the three candidates of Step 6 are permuted and the two mismatch tests of Step 6A trade
places. -/
theorem stepCell_swap {p1 q1 p2 q2 p3 q3 : Prop} [Decidable p1] [Decidable q1] [Decidable p2]
    [Decidable q2] [Decidable p3] [Decidable q3] (e1 : q1 ↔ p1) (e2 : q2 ↔ p2) (e3 : q3 ↔ p3)
    (i j : Nat) (A L D X : Int) :
    (if i > 2 ∧ j > 2 then
        if min (A + 1) (min (L + 1) (D + if p1 then 0 else 1))
            > (if p2 then (if p3 then X + 1 + 1 else X + 1) + 1
                else (if p3 then X + 1 + 1 else X + 1))
        then (if p2 then (if p3 then X + 1 + 1 else X + 1) + 1
                else (if p3 then X + 1 + 1 else X + 1))
        else min (A + 1) (min (L + 1) (D + if p1 then 0 else 1))
      else min (A + 1) (min (L + 1) (D + if p1 then 0 else 1)))
    = (if j > 2 ∧ i > 2 then
        if min (L + 1) (min (A + 1) (D + if q1 then 0 else 1))
            > (if q3 then (if q2 then X + 1 + 1 else X + 1) + 1
                else (if q2 then X + 1 + 1 else X + 1))
        then (if q3 then (if q2 then X + 1 + 1 else X + 1) + 1
                else (if q2 then X + 1 + 1 else X + 1))
        else min (L + 1) (min (A + 1) (D + if q1 then 0 else 1))
      else min (L + 1) (min (A + 1) (D + if q1 then 0 else 1))) := by
  by_cases c1 : p1 <;> by_cases c2 : p2 <;> by_cases c3 : p3 <;>
  simp only [c1, c2, c3, e1, e2, e3, if_true, if_false] <;>
  omega

theorem cellValue_swap (source target : List α) (M N : Tmatrix) (i j : Nat)
    (h1 : M (i - 1) j = N j (i - 1)) (h2 : M i (j - 1) = N (j - 1) i)
    (h3 : M (i - 1) (j - 1) = N (j - 1) (i - 1)) (h4 : M (i - 2) (j - 2) = N (j - 2) (i - 2)) :
    cellValue source target M i j = cellValue target source N j i := by
  unfold cellValue
  simp only [h1, h2, h3, h4]
  exact stepCell_swap ⟨Eq.symm, Eq.symm⟩ ⟨Ne.symm, Ne.symm⟩ ⟨Ne.symm, Ne.symm⟩ i j _ _ _ _

theorem finalMatrix_swap (source target : List α) (k : Nat) :
    ∀ i j : Nat, i + j = k → i ≤ source.length → j ≤ target.length →
      finalMatrix source target i j = finalMatrix target source j i := by
  induction k using Nat.strong_induction_on with
  | _ k ih =>
    intro i j hk hi hj
    by_cases hi0 : i = 0
    · subst hi0
      rw [finalMatrix_row _ _ _ hj, finalMatrix_col _ _ _ hj]
    by_cases hj0 : j = 0
    · subst hj0
      rw [finalMatrix_col _ _ _ hi, finalMatrix_row _ _ _ hi]
    rw [finalMatrix_cell source target i j (by omega) hi (by omega) hj,
      finalMatrix_cell target source j i (by omega) hj (by omega) hi]
    apply cellValue_swap
    · exact ih (i - 1 + j) (by omega) _ _ rfl (by omega) hj
    · exact ih (i + (j - 1)) (by omega) _ _ rfl hi (by omega)
    · exact ih (i - 1 + (j - 1)) (by omega) _ _ rfl (by omega) (by omega)
    · exact ih (i - 2 + (j - 2)) (by omega) _ _ rfl (by omega) (by omega)

theorem distance_comm (a b : List α) : distance a b = distance b a := by
  unfold distance
  by_cases hn : a.length = 0
  · by_cases hm : b.length = 0
    · simp [hn, hm]
    · simp [hn, hm]
  · by_cases hm : b.length = 0
    · simp [hn, hm]
    · simp only [hn, hm, if_false]
      exact finalMatrix_swap a b _ _ _ rfl (le_refl _) (le_refl _)


theorem cellValue_lower (source target : List α) (M : Tmatrix) (i j : Nat) (c : Int)
    (h1 : c ≤ M (i - 1) j + 1) (h2 : c ≤ M i (j - 1) + 1) (h3 : c ≤ M (i - 1) (j - 1))
    (h4 : c ≤ M (i - 2) (j - 2) + 1) : c ≤ cellValue source target M i j := by
  unfold cellValue
  simp only
  split_ifs <;> omega

theorem cellValue_eq_zero (source target : List α) (M : Tmatrix) (i j : Nat)
    (h1 : 0 ≤ M (i - 1) j) (h2 : 0 ≤ M i (j - 1)) (h3 : 0 ≤ M (i - 1) (j - 1))
    (h4 : 0 ≤ M (i - 2) (j - 2)) (h : cellValue source target M i j = 0) :
    M (i - 1) (j - 1) = 0 ∧ source[i - 1]? = target[j - 1]? := by
  unfold cellValue at h
  simp only at h
  by_cases c1 : source[i - 1]? = target[j - 1]?
  · refine ⟨?_, c1⟩
    split_ifs at h <;> omega
  · exfalso
    split_ifs at h <;> omega

theorem cellValue_diag_zero (source target : List α) (M : Tmatrix) (i j : Nat)
    (h1 : 0 ≤ M (i - 1) j) (h2 : 0 ≤ M i (j - 1)) (h3 : M (i - 1) (j - 1) = 0)
    (h4 : 0 ≤ M (i - 2) (j - 2)) (hc : source[i - 1]? = target[j - 1]?) :
    cellValue source target M i j = 0 := by
  unfold cellValue
  simp only
  split_ifs <;> omega

/-- Every cell of the final matrix is at least the difference of its indices. -/
theorem finalMatrix_lower (source target : List α) (k : Nat) :
    ∀ i j : Nat, i + j = k → i ≤ source.length → j ≤ target.length →
      (i : Int) - j ≤ finalMatrix source target i j
        ∧ (j : Int) - i ≤ finalMatrix source target i j := by
  induction k using Nat.strong_induction_on with
  | _ k ih =>
    intro i j hk hi hj
    by_cases hi0 : i = 0
    · subst hi0
      rw [finalMatrix_row _ _ _ hj]
      constructor <;> omega
    by_cases hj0 : j = 0
    · subst hj0
      rw [finalMatrix_col _ _ _ hi]
      constructor <;> omega
    rw [finalMatrix_cell source target i j (by omega) hi (by omega) hj]
    have a1 := ih (i - 1 + j) (by omega) _ _ rfl (by omega) hj
    have a2 := ih (i + (j - 1)) (by omega) _ _ rfl hi (by omega)
    have a3 := ih (i - 1 + (j - 1)) (by omega) _ _ rfl (by omega) (by omega)
    have a4 := ih (i - 2 + (j - 2)) (by omega) (i - 2) (j - 2) rfl (by omega) (by omega)
    constructor <;> apply cellValue_lower <;> omega

theorem finalMatrix_nonneg (source target : List α) (i j : Nat) (hi : i ≤ source.length)
    (hj : j ≤ target.length) : 0 ≤ finalMatrix source target i j := by
  have h := finalMatrix_lower source target (i + j) i j rfl hi hj
  omega

/-- A zero cell lies on the diagonal and the two prefixes of that length agree. -/
theorem finalMatrix_eq_zero (source target : List α) (i : Nat) :
    ∀ j : Nat, i ≤ source.length → j ≤ target.length → finalMatrix source target i j = 0 →
      i = j ∧ ∀ k, k < i → source[k]? = target[k]? := by
  induction i with
  | zero =>
    intro j _ hj h
    rw [finalMatrix_row _ _ _ hj] at h
    exact ⟨by omega, fun k hk => by omega⟩
  | succ i ih =>
    intro j hi hj h
    by_cases hj0 : j = 0
    · subst hj0
      rw [finalMatrix_col _ _ _ hi] at h
      omega
    rw [finalMatrix_cell source target (i + 1) j (by omega) hi (by omega) hj] at h
    have hz := cellValue_eq_zero source target _ (i + 1) j
      (finalMatrix_nonneg _ _ _ _ (by omega) hj)
      (finalMatrix_nonneg _ _ _ _ hi (by omega))
      (finalMatrix_nonneg _ _ _ _ (by omega) (by omega))
      (finalMatrix_nonneg _ _ _ _ (by omega) (by omega)) h
    have hrec := ih (j - 1) (by omega) (by omega) hz.1
    refine ⟨by omega, fun k hk => ?_⟩
    by_cases hki : k < i
    · exact hrec.2 k hki
    · have hk2 : k = i := by omega
      have hj2 : j - 1 = i := by omega
      have hc := hz.2
      rw [hj2] at hc
      subst hk2
      exact hc

theorem finalMatrix_diag (a : List α) (i : Nat) (hi : i ≤ a.length) :
    finalMatrix a a i i = 0 := by
  induction i with
  | zero => exact finalMatrix_row a a 0 (by omega)
  | succ i ih =>
    rw [finalMatrix_cell a a (i + 1) (i + 1) (by omega) hi (by omega) hi]
    exact cellValue_diag_zero a a _ (i + 1) (i + 1)
      (finalMatrix_nonneg _ _ _ _ (by omega) hi)
      (finalMatrix_nonneg _ _ _ _ hi (by omega))
      (ih (by omega))
      (finalMatrix_nonneg _ _ _ _ (by omega) (by omega)) rfl

theorem distance_self (a : List α) : distance a a = 0 := by
  unfold distance
  by_cases hn : a.length = 0
  · simp [hn]
  · simp only [hn, if_false]
    exact finalMatrix_diag a a.length (le_refl _)

theorem eq_of_distance_eq_zero (a b : List α) (h : distance a b = 0) : a = b := by
  unfold distance at h
  by_cases hn : a.length = 0
  · simp only [hn, if_true] at h
    have hb : b.length = 0 := by omega
    rw [List.length_eq_zero] at hn hb
    rw [hn, hb]
  · by_cases hm : b.length = 0
    · simp only [hn, hm, if_true, if_false] at h
      omega
    · simp only [hn, hm, if_false] at h
      have hz := finalMatrix_eq_zero a b a.length b.length (le_refl _) (le_refl _) h
      apply List.ext_getElem? 
      intro k
      by_cases hk : k < a.length
      · exact hz.2 k hk
      · rw [List.getElem?_eq_none (by omega), List.getElem?_eq_none (by omega)]

theorem distance_nonneg (a b : List α) : 0 ≤ distance a b := by
  unfold distance
  simp only
  split_ifs
  · omega
  · omega
  · exact finalMatrix_nonneg a b _ _ (le_refl _) (le_refl _)

end DistanceLemmas

/-! ## Nodes: search and insertion -/

section TreeLemmas
variable {T : Type}

mutual
theorem BKNode.find_sound (d : T → T → Int) :
    ∀ (t : BKNode T) (q : T) (th : Int) (e : T),
      e ∈ BKNode.find d t q th → e ∈ BKNode.values t ∧ d e q ≤ th
  | BKNode.mk v cs, q, th, e, h => by
    simp only [BKNode.find, List.mem_append] at h
    simp only [BKNode.values, List.mem_cons]
    rcases h with h | h
    · by_cases hd : d v q ≤ th
      · rw [if_pos hd] at h
        simp only [List.mem_singleton] at h
        subst h
        exact ⟨Or.inl rfl, hd⟩
      · rw [if_neg hd] at h
        simp at h
    · have := ChildMap.findRange_sound d cs q th _ _ e h
      exact ⟨Or.inr this.1, this.2⟩
theorem ChildMap.findRange_sound (d : T → T → Int) :
    ∀ (cs : ChildMap T) (q : T) (th lo hi : Int) (e : T),
      e ∈ ChildMap.findRange d cs q th lo hi → e ∈ ChildMap.values cs ∧ d e q ≤ th
  | ChildMap.nil, q, th, lo, hi, e, h => by
    simp [ChildMap.findRange] at h
  | ChildMap.cons k c rest, q, th, lo, hi, e, h => by
    simp only [ChildMap.findRange, List.mem_append] at h
    simp only [ChildMap.values, List.mem_append]
    rcases h with h | h
    · by_cases hk : lo ≤ k ∧ k ≤ hi
      · rw [if_pos hk] at h
        have := BKNode.find_sound d c q th e h
        exact ⟨Or.inl this.1, this.2⟩
      · rw [if_neg hk] at h
        simp at h
    · have := ChildMap.findRange_sound d rest q th lo hi e h
      exact ⟨Or.inr this.1, this.2⟩
end


mutual
theorem BKNode.values_insert_subset (d : T → T → Int) :
    ∀ (t : BKNode T) (x u : T),
      u ∈ BKNode.values (BKNode.insert d t x) → u ∈ BKNode.values t ∨ u = x
  | BKNode.mk v cs, x, u, h => by
    simp only [BKNode.insert] at h
    by_cases hd : d v x ≠ 0
    · rw [if_pos hd] at h
      simp only [BKNode.values, List.mem_cons] at h ⊢
      rcases h with h | h
      · exact Or.inl (Or.inl h)
      · rcases ChildMap.values_insertAt_subset d cs (d v x) x u h with h2 | h2
        · exact Or.inl (Or.inr h2)
        · exact Or.inr h2
    · rw [if_neg hd] at h
      exact Or.inl h
theorem ChildMap.values_insertAt_subset (d : T → T → Int) :
    ∀ (cs : ChildMap T) (k : Int) (x u : T),
      u ∈ ChildMap.values (ChildMap.insertAt d cs k x) → u ∈ ChildMap.values cs ∨ u = x
  | ChildMap.nil, k, x, u, h => by
    simp only [ChildMap.insertAt, ChildMap.values, BKNode.values, List.append_nil,
      List.mem_singleton] at h
    exact Or.inr h
  | ChildMap.cons key c rest, k, x, u, h => by
    simp only [ChildMap.insertAt] at h
    by_cases h1 : k = key
    · rw [if_pos h1] at h
      simp only [ChildMap.values, List.mem_append] at h ⊢
      rcases h with h | h
      · rcases BKNode.values_insert_subset d c x u h with h2 | h2
        · exact Or.inl (Or.inl h2)
        · exact Or.inr h2
      · exact Or.inl (Or.inr h)
    · rw [if_neg h1] at h
      by_cases h2 : k < key
      · rw [if_pos h2] at h
        simp only [ChildMap.values, BKNode.values, List.mem_append, List.mem_cons,
          List.append_nil, List.not_mem_nil, or_false] at h ⊢
        rcases h with h | h
        · exact Or.inr h
        · exact Or.inl h
      · rw [if_neg h2] at h
        simp only [ChildMap.values, List.mem_append] at h ⊢
        rcases h with h | h
        · exact Or.inl (Or.inl h)
        · rcases ChildMap.values_insertAt_subset d rest k x u h with h3 | h3
          · exact Or.inl (Or.inr h3)
          · exact Or.inr h3
end

mutual
theorem BKNode.values_subset_insert (d : T → T → Int) :
    ∀ (t : BKNode T) (x u : T),
      u ∈ BKNode.values t → u ∈ BKNode.values (BKNode.insert d t x)
  | BKNode.mk v cs, x, u, h => by
    simp only [BKNode.insert]
    by_cases hd : d v x ≠ 0
    · rw [if_pos hd]
      simp only [BKNode.values, List.mem_cons] at h ⊢
      rcases h with h | h
      · exact Or.inl h
      · exact Or.inr (ChildMap.values_subset_insertAt d cs (d v x) x u h)
    · rw [if_neg hd]
      exact h
theorem ChildMap.values_subset_insertAt (d : T → T → Int) :
    ∀ (cs : ChildMap T) (k : Int) (x u : T),
      u ∈ ChildMap.values cs → u ∈ ChildMap.values (ChildMap.insertAt d cs k x)
  | ChildMap.nil, k, x, u, h => by
    simp [ChildMap.values] at h
  | ChildMap.cons key c rest, k, x, u, h => by
    simp only [ChildMap.insertAt]
    by_cases h1 : k = key
    · rw [if_pos h1]
      simp only [ChildMap.values, List.mem_append] at h ⊢
      rcases h with h | h
      · exact Or.inl (BKNode.values_subset_insert d c x u h)
      · exact Or.inr h
    · rw [if_neg h1]
      by_cases h2 : k < key
      · rw [if_pos h2]
        simp only [ChildMap.values, List.mem_append] at h ⊢
        exact Or.inr h
      · rw [if_neg h2]
        simp only [ChildMap.values, List.mem_append] at h ⊢
        rcases h with h | h
        · exact Or.inl h
        · exact Or.inr (ChildMap.values_subset_insertAt d rest k x u h)
end

mutual
theorem BKNode.mem_values_insert_self (d : T → T → Int) (hz : ∀ a b, d a b = 0 → a = b) :
    ∀ (t : BKNode T) (x : T), x ∈ BKNode.values (BKNode.insert d t x)
  | BKNode.mk v cs, x => by
    simp only [BKNode.insert]
    by_cases hd : d v x ≠ 0
    · rw [if_pos hd]
      simp only [BKNode.values, List.mem_cons]
      exact Or.inr (ChildMap.mem_values_insertAt_self d hz cs (d v x) x)
    · rw [if_neg hd]
      simp only [BKNode.values, List.mem_cons]
      exact Or.inl (hz v x (not_not.mp hd)).symm
theorem ChildMap.mem_values_insertAt_self (d : T → T → Int) (hz : ∀ a b, d a b = 0 → a = b) :
    ∀ (cs : ChildMap T) (k : Int) (x : T), x ∈ ChildMap.values (ChildMap.insertAt d cs k x)
  | ChildMap.nil, k, x => by
    simp [ChildMap.insertAt, ChildMap.values, BKNode.values]
  | ChildMap.cons key c rest, k, x => by
    simp only [ChildMap.insertAt]
    by_cases h1 : k = key
    · rw [if_pos h1]
      simp only [ChildMap.values, List.mem_append]
      exact Or.inl (BKNode.mem_values_insert_self d hz c x)
    · rw [if_neg h1]
      by_cases h2 : k < key
      · rw [if_pos h2]
        simp [ChildMap.values, BKNode.values]
      · rw [if_neg h2]
        simp only [ChildMap.values, List.mem_append]
        exact Or.inr (ChildMap.mem_values_insertAt_self d hz rest k x)
end

theorem ChildMap.keys_insertAt (d : T → T → Int) :
    ∀ (cs : ChildMap T) (k : Int) (x : T) (i : Int),
      i ∈ ChildMap.keys (ChildMap.insertAt d cs k x) → i = k ∨ i ∈ ChildMap.keys cs
  | ChildMap.nil, k, x, i, h => by
    simp only [ChildMap.insertAt, ChildMap.keys, List.mem_singleton] at h
    exact Or.inl h
  | ChildMap.cons key c rest, k, x, i, h => by
    simp only [ChildMap.insertAt] at h
    by_cases h1 : k = key
    · rw [if_pos h1] at h
      exact Or.inr h
    · rw [if_neg h1] at h
      by_cases h2 : k < key
      · rw [if_pos h2] at h
        simp only [ChildMap.keys, List.mem_cons] at h ⊢
        exact h
      · rw [if_neg h2] at h
        simp only [ChildMap.keys, List.mem_cons] at h ⊢
        rcases h with h | h
        · exact Or.inr (Or.inl h)
        · rcases ChildMap.keys_insertAt d rest k x i h with h3 | h3
          · exact Or.inl h3
          · exact Or.inr (Or.inr h3)

mutual
theorem BKNode.ordered_insert (d : T → T → Int) :
    ∀ (t : BKNode T) (x : T), BKNode.Ordered t → BKNode.Ordered (BKNode.insert d t x)
  | BKNode.mk v cs, x, h => by
    simp only [BKNode.insert]
    by_cases hd : d v x ≠ 0
    · rw [if_pos hd]
      simp only [BKNode.Ordered] at h ⊢
      exact ChildMap.ordered_insertAt d cs (d v x) x h
    · rw [if_neg hd]
      exact h
theorem ChildMap.ordered_insertAt (d : T → T → Int) :
    ∀ (cs : ChildMap T) (k : Int) (x : T),
      ChildMap.Ordered cs → ChildMap.Ordered (ChildMap.insertAt d cs k x)
  | ChildMap.nil, k, x, _ => by
    simp [ChildMap.insertAt, ChildMap.Ordered, ChildMap.keys, BKNode.Ordered]
  | ChildMap.cons key c rest, k, x, h => by
    simp only [ChildMap.Ordered] at h
    simp only [ChildMap.insertAt]
    by_cases h1 : k = key
    · rw [if_pos h1]
      simp only [ChildMap.Ordered]
      exact ⟨h.1, BKNode.ordered_insert d c x h.2.1, h.2.2⟩
    · rw [if_neg h1]
      by_cases h2 : k < key
      · rw [if_pos h2]
        simp only [ChildMap.Ordered, ChildMap.keys, List.mem_cons, BKNode.Ordered]
        refine ⟨?_, trivial, h⟩
        intro i hi
        rcases hi with hi | hi
        · omega
        · have := h.1 i hi
          omega
      · rw [if_neg h2]
        simp only [ChildMap.Ordered]
        refine ⟨?_, h.2.1, ChildMap.ordered_insertAt d rest k x h.2.2⟩
        intro i hi
        rcases ChildMap.keys_insertAt d rest k x i hi with h3 | h3
        · omega
        · exact h.1 i h3
end

mutual
theorem BKNode.bucketed_insert (d : T → T → Int) :
    ∀ (t : BKNode T) (x : T), BKNode.Bucketed d t → BKNode.Bucketed d (BKNode.insert d t x)
  | BKNode.mk v cs, x, h => by
    simp only [BKNode.insert]
    by_cases hd : d v x ≠ 0
    · rw [if_pos hd]
      simp only [BKNode.Bucketed] at h ⊢
      exact ChildMap.bucketed_insertAt d cs v (d v x) x hd rfl h
    · rw [if_neg hd]
      exact h
theorem ChildMap.bucketed_insertAt (d : T → T → Int) :
    ∀ (cs : ChildMap T) (v : T) (k : Int) (x : T), k ≠ 0 → d v x = k →
      ChildMap.Bucketed d cs v → ChildMap.Bucketed d (ChildMap.insertAt d cs k x) v
  | ChildMap.nil, v, k, x, hk, hx, _ => by
    simp only [ChildMap.insertAt, ChildMap.Bucketed, BKNode.values, ChildMap.values,
      List.mem_singleton, BKNode.Bucketed, and_true]
    exact ⟨hk, fun u hu => by rw [hu]; exact hx⟩
  | ChildMap.cons key c rest, v, k, x, hk, hx, h => by
    simp only [ChildMap.Bucketed] at h
    simp only [ChildMap.insertAt]
    by_cases h1 : k = key
    · rw [if_pos h1]
      simp only [ChildMap.Bucketed]
      refine ⟨h.1, ?_, BKNode.bucketed_insert d c x h.2.2.1, h.2.2.2⟩
      intro u hu
      rcases BKNode.values_insert_subset d c x u hu with h3 | h3
      · exact h.2.1 u h3
      · rw [h3, hx, h1]
    · rw [if_neg h1]
      by_cases h2 : k < key
      · rw [if_pos h2]
        simp only [ChildMap.Bucketed, BKNode.values, ChildMap.values, List.mem_singleton,
          BKNode.Bucketed, true_and]
        exact ⟨hk, fun u hu => by rw [hu]; exact hx, h⟩
      · rw [if_neg h2]
        simp only [ChildMap.Bucketed]
        exact ⟨h.1, h.2.1, h.2.2.1, ChildMap.bucketed_insertAt d rest v k x hk hx h.2.2.2⟩
end

mutual
theorem BKNode.find_complete (d : T → T → Int) (hsymm : ∀ a b, d a b = d b a)
    (htri : ∀ a b c, d a c ≤ d a b + d b c) :
    ∀ (t : BKNode T) (q : T) (th : Int) (e : T), BKNode.Bucketed d t →
      e ∈ BKNode.values t → d e q ≤ th → e ∈ BKNode.find d t q th
  | BKNode.mk v cs, q, th, e, hb, he, hd => by
    simp only [BKNode.find, List.mem_append]
    simp only [BKNode.values, List.mem_cons] at he
    simp only [BKNode.Bucketed] at hb
    rcases he with he | he
    · left
      rw [← he, if_pos hd]
      exact List.mem_singleton.mpr rfl
    · right
      exact ChildMap.findRange_complete d hsymm htri cs v q th e hb he hd
theorem ChildMap.findRange_complete (d : T → T → Int) (hsymm : ∀ a b, d a b = d b a)
    (htri : ∀ a b c, d a c ≤ d a b + d b c) :
    ∀ (cs : ChildMap T) (v q : T) (th : Int) (e : T), ChildMap.Bucketed d cs v →
      e ∈ ChildMap.values cs → d e q ≤ th →
      e ∈ ChildMap.findRange d cs q th (d v q - th) (d v q + th)
  | ChildMap.nil, v, q, th, e, _, he, _ => by
    simp [ChildMap.values] at he
  | ChildMap.cons key c rest, v, q, th, e, hb, he, hd => by
    simp only [ChildMap.Bucketed] at hb
    simp only [ChildMap.values, List.mem_append] at he
    simp only [ChildMap.findRange, List.mem_append]
    rcases he with he | he
    · left
      have hk := hb.2.1 e he
      have t1 := htri v e q
      have t2 := htri v q e
      have s1 := hsymm q e
      have hr : d v q - th ≤ key ∧ key ≤ d v q + th := by omega
      rw [if_pos hr]
      exact BKNode.find_complete d hsymm htri c q th e hb.2.2.1 he hd
    · right
      exact ChildMap.findRange_complete d hsymm htri rest v q th e hb.2.2.2 he hd
end

theorem ChildMap.findRange_eq_nil (d : T → T → Int) :
    ∀ (cs : ChildMap T) (q : T) (th lo hi : Int),
      (∀ k ∈ ChildMap.keys cs, ¬ (lo ≤ k ∧ k ≤ hi)) → ChildMap.findRange d cs q th lo hi = []
  | ChildMap.nil, _, _, _, _, _ => rfl
  | ChildMap.cons key c rest, q, th, lo, hi, h => by
    simp only [ChildMap.keys, List.mem_cons] at h
    simp only [ChildMap.findRange]
    rw [if_neg (h key (Or.inl rfl)), List.nil_append]
    exact ChildMap.findRange_eq_nil d rest q th lo hi (fun k hk => h k (Or.inr hk))

theorem ChildMap.key_ne_zero (d : T → T → Int) :
    ∀ (cs : ChildMap T) (v : T), ChildMap.Bucketed d cs v → ∀ k ∈ ChildMap.keys cs, k ≠ 0
  | ChildMap.nil, _, _, k, hk => by
    simp [ChildMap.keys] at hk
  | ChildMap.cons key c rest, v, h, k, hk => by
    simp only [ChildMap.Bucketed] at h
    simp only [ChildMap.keys, List.mem_cons] at hk
    rcases hk with hk | hk
    · rw [hk]; exact h.1
    · exact ChildMap.key_ne_zero d rest v h.2.2.2 k hk

theorem BKNode.find_leaf (d : T → T → Int) (x q : T) (th : Int) :
    BKNode.find d (BKNode.mk x ChildMap.nil) q th = if d x q ≤ th then [x] else [] := by
  simp only [BKNode.find, ChildMap.findRange, List.append_nil]

theorem BKNode.find_zero_leaf_self (d : T → T → Int) (hz : ∀ a b, d a b = 0 ↔ a = b) (q : T) :
    BKNode.find d (BKNode.mk q ChildMap.nil) q 0 = [q] := by
  rw [BKNode.find_leaf, if_pos (le_of_eq ((hz q q).mpr rfl))]

theorem BKNode.find_zero_leaf_other (d : T → T → Int) (hnn : ∀ a b, 0 ≤ d a b)
    (hz : ∀ a b, d a b = 0 ↔ a = b) (x q : T) (hx : x ≠ q) :
    BKNode.find d (BKNode.mk x ChildMap.nil) q 0 = [] := by
  rw [BKNode.find_leaf, if_neg]
  intro h
  exact hx ((hz x q).mp (le_antisymm h (hnn x q)))

mutual
/-- After `insert(q)`, the exact-match search for `q` returns `q` once. -/
theorem BKNode.find_zero_insert_self (d : T → T → Int) (hnn : ∀ a b, 0 ≤ d a b)
    (hz : ∀ a b, d a b = 0 ↔ a = b) :
    ∀ (t : BKNode T) (q : T), BKNode.Ordered t → BKNode.Bucketed d t →
      BKNode.find d (BKNode.insert d t q) q 0 = [q]
  | BKNode.mk v cs, q, ho, hb => by
    simp only [BKNode.Ordered] at ho
    simp only [BKNode.Bucketed] at hb
    simp only [BKNode.insert]
    by_cases hd : d v q ≠ 0
    · rw [if_pos hd]
      simp only [BKNode.find, sub_zero, add_zero]
      have hpos : ¬ d v q ≤ 0 := fun h => hd (le_antisymm h (hnn v q))
      rw [if_neg hpos, List.nil_append]
      exact ChildMap.findRange_zero_insertAt_self d hnn hz cs v (d v q) q hd ho hb
    · rw [if_neg hd]
      have h0 : d v q = 0 := not_not.mp hd
      have hv : v = q := (hz v q).mp h0
      simp only [BKNode.find, sub_zero, add_zero]
      rw [if_pos (le_of_eq h0), h0, hv]
      rw [ChildMap.findRange_eq_nil d cs q 0 0 0]
      · rfl
      · intro k hk hr
        exact ChildMap.key_ne_zero d cs v hb k hk (le_antisymm hr.2 hr.1)
theorem ChildMap.findRange_zero_insertAt_self (d : T → T → Int) (hnn : ∀ a b, 0 ≤ d a b)
    (hz : ∀ a b, d a b = 0 ↔ a = b) :
    ∀ (cs : ChildMap T) (v : T) (k : Int) (q : T), k ≠ 0 → ChildMap.Ordered cs →
      ChildMap.Bucketed d cs v →
      ChildMap.findRange d (ChildMap.insertAt d cs k q) q 0 k k = [q]
  | ChildMap.nil, v, k, q, _, _, _ => by
    simp only [ChildMap.insertAt, ChildMap.findRange, List.append_nil]
    rw [if_pos ⟨le_refl k, le_refl k⟩]
    exact BKNode.find_zero_leaf_self d hz q
  | ChildMap.cons key c rest, v, k, q, hk, ho, hb => by
    simp only [ChildMap.Ordered] at ho
    simp only [ChildMap.Bucketed] at hb
    simp only [ChildMap.insertAt]
    by_cases h1 : k = key
    · rw [if_pos h1]
      simp only [ChildMap.findRange]
      rw [if_pos ⟨le_of_eq h1, le_of_eq h1.symm⟩,
        BKNode.find_zero_insert_self d hnn hz c q ho.2.1 hb.2.2.1,
        ChildMap.findRange_eq_nil d rest q 0 k k]
      · rfl
      · intro i hi hr
        have := ho.1 i hi
        omega
    · rw [if_neg h1]
      by_cases h2 : k < key
      · rw [if_pos h2]
        simp only [ChildMap.findRange]
        rw [if_pos ⟨le_refl k, le_refl k⟩, BKNode.find_zero_leaf_self d hz q]
        have hn : ¬ (k ≤ key ∧ key ≤ k) := by omega
        rw [if_neg hn, ChildMap.findRange_eq_nil d rest q 0 k k]
        · rfl
        · intro i hi hr
          have := ho.1 i hi
          omega
      · rw [if_neg h2]
        simp only [ChildMap.findRange]
        have hn : ¬ (k ≤ key ∧ key ≤ k) := by omega
        rw [if_neg hn, List.nil_append]
        exact ChildMap.findRange_zero_insertAt_self d hnn hz rest v k q hk ho.2.2 hb.2.2.2
end

mutual
/-- Inserting `x ≠ q` does not change the exact-match search for `q`. -/
theorem BKNode.find_zero_insert_other (d : T → T → Int) (hnn : ∀ a b, 0 ≤ d a b)
    (hz : ∀ a b, d a b = 0 ↔ a = b) :
    ∀ (t : BKNode T) (x q : T), x ≠ q →
      BKNode.find d (BKNode.insert d t x) q 0 = BKNode.find d t q 0
  | BKNode.mk v cs, x, q, hx => by
    simp only [BKNode.insert]
    by_cases hd : d v x ≠ 0
    · rw [if_pos hd]
      simp only [BKNode.find]
      rw [ChildMap.findRange_zero_insertAt_other d hnn hz cs (d v x) x q _ _ hx]
    · rw [if_neg hd]
theorem ChildMap.findRange_zero_insertAt_other (d : T → T → Int) (hnn : ∀ a b, 0 ≤ d a b)
    (hz : ∀ a b, d a b = 0 ↔ a = b) :
    ∀ (cs : ChildMap T) (k : Int) (x q : T) (lo hi : Int), x ≠ q →
      ChildMap.findRange d (ChildMap.insertAt d cs k x) q 0 lo hi
        = ChildMap.findRange d cs q 0 lo hi
  | ChildMap.nil, k, x, q, lo, hi, hx => by
    simp only [ChildMap.insertAt, ChildMap.findRange, List.append_nil]
    rw [BKNode.find_zero_leaf_other d hnn hz x q hx, ite_self]
  | ChildMap.cons key c rest, k, x, q, lo, hi, hx => by
    simp only [ChildMap.insertAt]
    by_cases h1 : k = key
    · rw [if_pos h1]
      simp only [ChildMap.findRange]
      rw [BKNode.find_zero_insert_other d hnn hz c x q hx]
    · rw [if_neg h1]
      by_cases h2 : k < key
      · rw [if_pos h2]
        simp only [ChildMap.findRange]
        rw [BKNode.find_zero_leaf_other d hnn hz x q hx, ite_self, List.nil_append]
      · rw [if_neg h2]
        simp only [ChildMap.findRange]
        rw [ChildMap.findRange_zero_insertAt_other d hnn hz rest k x q lo hi hx]
end

/-! ### Trees -/

theorem BKTree.inv_empty (d : T → T → Int) : BKTree.Inv d (BKTree.empty : BKTree T) := by
  simp [BKTree.Inv, BKTree.empty]

theorem BKTree.inv_insert (d : T → T → Int) (t : BKTree T) (x : T) (h : BKTree.Inv d t) :
    BKTree.Inv d (BKTree.insert d t x) := by
  unfold BKTree.Inv BKTree.insert at *
  cases hr : t.root with
  | none =>
    simp [BKNode.leaf, BKNode.Ordered, BKNode.Bucketed, ChildMap.Ordered, ChildMap.Bucketed]
  | some r =>
    rw [hr] at h
    simp only at h ⊢
    exact ⟨BKNode.ordered_insert d r x h.1, BKNode.bucketed_insert d r x h.2⟩

theorem BKTree.inv_foldl (d : T → T → Int) :
    ∀ (S : List T) (t : BKTree T), BKTree.Inv d t → BKTree.Inv d (S.foldl (BKTree.insert d) t)
  | [], _, h => h
  | x :: S, t, h => BKTree.inv_foldl d S (BKTree.insert d t x) (BKTree.inv_insert d t x h)

theorem BKTree.values_insert_cases (d : T → T → Int) (t : BKTree T) (x u : T)
    (h : u ∈ BKTree.values (BKTree.insert d t x)) : u ∈ BKTree.values t ∨ u = x := by
  unfold BKTree.values BKTree.insert at *
  cases hr : t.root with
  | none =>
    rw [hr] at h
    simp only [BKNode.leaf, BKNode.values, ChildMap.values, List.mem_singleton] at h
    exact Or.inr h
  | some r =>
    rw [hr] at h
    exact BKNode.values_insert_subset d r x u h

theorem BKTree.values_insert_of_mem (d : T → T → Int) (t : BKTree T) (x u : T)
    (h : u ∈ BKTree.values t) : u ∈ BKTree.values (BKTree.insert d t x) := by
  unfold BKTree.values BKTree.insert at *
  cases hr : t.root with
  | none =>
    rw [hr] at h
    simp at h
  | some r =>
    rw [hr] at h
    exact BKNode.values_subset_insert d r x u h

theorem BKTree.mem_values_insert (d : T → T → Int) (hz : ∀ a b, d a b = 0 → a = b)
    (t : BKTree T) (x : T) : x ∈ BKTree.values (BKTree.insert d t x) := by
  unfold BKTree.values BKTree.insert
  cases hr : t.root with
  | none => simp [BKNode.leaf, BKNode.values]
  | some r => exact BKNode.mem_values_insert_self d hz r x

theorem BKTree.values_foldl_subset (d : T → T → Int) :
    ∀ (S : List T) (t : BKTree T) (u : T),
      u ∈ BKTree.values (S.foldl (BKTree.insert d) t) → u ∈ BKTree.values t ∨ u ∈ S
  | [], _, _, h => Or.inl h
  | x :: S, t, u, h => by
    rcases BKTree.values_foldl_subset d S (BKTree.insert d t x) u h with h1 | h1
    · rcases BKTree.values_insert_cases d t x u h1 with h2 | h2
      · exact Or.inl h2
      · exact Or.inr (by rw [h2]; exact List.mem_cons_self x S)
    · exact Or.inr (List.mem_cons_of_mem x h1)

theorem BKTree.values_subset_foldl (d : T → T → Int) :
    ∀ (S : List T) (t : BKTree T) (u : T),
      u ∈ BKTree.values t → u ∈ BKTree.values (S.foldl (BKTree.insert d) t)
  | [], _, _, h => h
  | x :: S, t, u, h =>
    BKTree.values_subset_foldl d S (BKTree.insert d t x) u (BKTree.values_insert_of_mem d t x u h)

theorem BKTree.mem_values_foldl (d : T → T → Int) (hz : ∀ a b, d a b = 0 → a = b) :
    ∀ (S : List T) (t : BKTree T) (u : T),
      u ∈ S → u ∈ BKTree.values (S.foldl (BKTree.insert d) t)
  | [], _, _, h => by simp at h
  | x :: S, t, u, h => by
    rcases List.mem_cons.mp h with h1 | h1
    · rw [h1]
      exact BKTree.values_subset_foldl d S _ x (BKTree.mem_values_insert d hz t x)
    · exact BKTree.mem_values_foldl d hz S (BKTree.insert d t x) u h1

/-- The values stored in the tree built from `S` are the elements of `S`. -/
theorem BKTree.mem_values_build (d : T → T → Int) (hz : ∀ a b, d a b = 0 → a = b)
    (S : List T) (u : T) : u ∈ BKTree.values (BKTree.build d S) ↔ u ∈ S := by
  unfold BKTree.build
  constructor
  · intro h
    rcases BKTree.values_foldl_subset d S BKTree.empty u h with h1 | h1
    · simp [BKTree.values, BKTree.empty] at h1
    · exact h1
  · exact BKTree.mem_values_foldl d hz S BKTree.empty u

theorem BKTree.find_subset_values (d : T → T → Int) (t : BKTree T) (q : T) (th : Int) (e : T)
    (h : e ∈ BKTree.find d t q th) : e ∈ BKTree.values t ∧ d e q ≤ th := by
  unfold BKTree.find at h
  unfold BKTree.values
  cases hr : t.root with
  | none => rw [hr] at h; simp at h
  | some r => rw [hr] at h; exact BKNode.find_sound d r q th e h

theorem BKTree.mem_find_of_mem_values (d : T → T → Int) (hsymm : ∀ a b, d a b = d b a)
    (htri : ∀ a b c, d a c ≤ d a b + d b c) (t : BKTree T) (q : T) (th : Int) (e : T)
    (hinv : BKTree.Inv d t) (he : e ∈ BKTree.values t) (hd : d e q ≤ th) :
    e ∈ BKTree.find d t q th := by
  unfold BKTree.find
  unfold BKTree.values at he
  unfold BKTree.Inv at hinv
  cases hr : t.root with
  | none => rw [hr] at he; simp at he
  | some r =>
    rw [hr] at he hinv
    exact BKNode.find_complete d hsymm htri r q th e hinv.2 he hd

theorem BKTree.find_zero_insert (d : T → T → Int) (hnn : ∀ a b, 0 ≤ d a b)
    (hz : ∀ a b, d a b = 0 ↔ a = b) [DecidableEq T] (t : BKTree T) (x q : T)
    (hinv : BKTree.Inv d t) :
    BKTree.find d (BKTree.insert d t x) q 0 = if x = q then [q] else BKTree.find d t q 0 := by
  unfold BKTree.find BKTree.insert
  unfold BKTree.Inv at hinv
  cases hr : t.root with
  | none =>
    simp only [BKNode.leaf]
    by_cases hx : x = q
    · rw [if_pos hx, hx]
      exact BKNode.find_zero_leaf_self d hz q
    · rw [if_neg hx]
      exact BKNode.find_zero_leaf_other d hnn hz x q hx
  | some r =>
    rw [hr] at hinv
    simp only
    by_cases hx : x = q
    · rw [if_pos hx, hx]
      exact BKNode.find_zero_insert_self d hnn hz r q hinv.1 hinv.2
    · rw [if_neg hx]
      exact BKNode.find_zero_insert_other d hnn hz r x q hx

theorem BKTree.find_zero_foldl (d : T → T → Int) (hnn : ∀ a b, 0 ≤ d a b)
    (hz : ∀ a b, d a b = 0 ↔ a = b) [DecidableEq T] (q : T) :
    ∀ (S : List T) (t : BKTree T), BKTree.Inv d t →
      BKTree.find d (S.foldl (BKTree.insert d) t) q 0
        = if q ∈ S then [q] else BKTree.find d t q 0
  | [], t, _ => by simp
  | x :: S, t, h => by
    rw [List.foldl_cons, BKTree.find_zero_foldl d hnn hz q S _ (BKTree.inv_insert d t x h),
      BKTree.find_zero_insert d hnn hz t x q h]
    by_cases h1 : q ∈ S
    · rw [if_pos h1, if_pos (List.mem_cons_of_mem x h1)]
    · rw [if_neg h1]
      by_cases h2 : x = q
      · rw [if_pos h2, if_pos (by rw [h2]; exact List.mem_cons_self q S)]
      · rw [if_neg h2, if_neg]
        intro h3
        rcases List.mem_cons.mp h3 with h4 | h4
        · exact h2 h4.symm
        · exact h1 h4

end TreeLemmas

/-! ## The search loop and the ordered map -/

section LoopLemmas
variable {T : Type}

theorem ChildMap.lookup_eq_none :
    ∀ (cs : ChildMap T) (i : Int), i ∉ ChildMap.keys cs → ChildMap.lookup cs i = none
  | ChildMap.nil, _, _ => rfl
  | ChildMap.cons key c rest, i, h => by
    simp only [ChildMap.keys, List.mem_cons, not_or] at h
    simp only [ChildMap.lookup]
    rw [if_neg h.1]
    exact ChildMap.lookup_eq_none rest i h.2

/-- The range search only depends on which keys are in the range. -/
theorem ChildMap.findRange_congr (d : T → T → Int) :
    ∀ (cs : ChildMap T) (q : T) (th lo hi lo2 hi2 : Int),
      (∀ k ∈ ChildMap.keys cs, (lo ≤ k ∧ k ≤ hi) ↔ (lo2 ≤ k ∧ k ≤ hi2)) →
      ChildMap.findRange d cs q th lo hi = ChildMap.findRange d cs q th lo2 hi2
  | ChildMap.nil, _, _, _, _, _, _, _ => rfl
  | ChildMap.cons key c rest, q, th, lo, hi, lo2, hi2, h => by
    simp only [ChildMap.keys, List.mem_cons] at h
    simp only [ChildMap.findRange]
    rw [ChildMap.findRange_congr d rest q th lo hi lo2 hi2 (fun k hk => h k (Or.inr hk))]
    by_cases hk : lo ≤ key ∧ key ≤ hi
    · rw [if_pos hk, if_pos ((h key (Or.inl rfl)).mp hk)]
    · rw [if_neg hk, if_neg (fun h2 => hk ((h key (Or.inl rfl)).mpr h2))]

/-- One iteration of the loop, on an ordered map: the child under the key `lo`, if any,
is searched first, and the other keys of the range follow. -/
theorem ChildMap.findRange_step (d : T → T → Int) :
    ∀ (cs : ChildMap T) (q : T) (th lo hi : Int), ChildMap.Ordered cs → lo ≤ hi →
      ChildMap.findRange d cs q th lo hi
        = (match ChildMap.lookup cs lo with
            | some child => BKNode.find d child q th
            | none => [])
          ++ ChildMap.findRange d cs q th (lo + 1) hi
  | ChildMap.nil, _, _, _, _, _, _ => rfl
  | ChildMap.cons key c rest, q, th, lo, hi, ho, hle => by
    simp only [ChildMap.Ordered] at ho
    by_cases h1 : lo = key
    · subst h1
      simp only [ChildMap.lookup, ChildMap.findRange, if_true]
      have hn : ¬ (lo + 1 ≤ lo ∧ lo ≤ hi) := by omega
      rw [if_pos ⟨le_refl lo, hle⟩, if_neg hn, List.nil_append]
      rw [ChildMap.findRange_congr d rest q th lo hi (lo + 1) hi]
      intro k hk
      have := ho.1 k hk
      constructor <;> intro h <;> constructor <;> omega
    · simp only [ChildMap.lookup]
      rw [if_neg h1]
      by_cases h2 : key < lo
      · simp only [ChildMap.findRange]
        have hn1 : ¬ (lo ≤ key ∧ key ≤ hi) := by omega
        have hn2 : ¬ (lo + 1 ≤ key ∧ key ≤ hi) := by omega
        rw [if_neg hn1, if_neg hn2, List.nil_append, List.nil_append]
        exact ChildMap.findRange_step d rest q th lo hi ho.2.2 hle
      · have hnone : ChildMap.lookup rest lo = none := by
          apply ChildMap.lookup_eq_none
          intro hmem
          have := ho.1 lo hmem
          omega
        rw [hnone]
        simp only [List.nil_append]
        apply ChildMap.findRange_congr
        intro k hk
        simp only [ChildMap.keys, List.mem_cons] at hk
        have hgt : lo < k := by
          rcases hk with hk | hk
          · omega
          · have := ho.1 k hk
            omega
        constructor <;> intro h <;> constructor <;> omega

/-- On an ordered map, the traversal `findRange` is the loop of the source run for
`i = dmin, …, dmax`. -/
theorem ChildMap.findRange_eq_findLoop (d : T → T → Int) (cs : ChildMap T) (q : T)
    (th : Int) (ho : ChildMap.Ordered cs) (hi : Int) :
    ∀ (count : Nat) (lo : Int), count = (hi + 1 - lo).toNat →
      ChildMap.findRange d cs q th lo hi = ChildMap.findLoop d cs q th count lo
  | 0, lo, hc => by
    simp only [ChildMap.findLoop]
    apply ChildMap.findRange_eq_nil
    intro k _ hr
    omega
  | count + 1, lo, hc => by
    simp only [ChildMap.findLoop]
    rw [ChildMap.findRange_step d cs q th lo hi ho (by omega),
      ChildMap.findRange_eq_findLoop d cs q th ho hi count (lo + 1) (by omega)]

/-- `BKNode<T>::find` with its loop as written in the source. -/
theorem BKNode.find_eq_loop (d : T → T → Int) (value : T) (children : ChildMap T) (rhs : T)
    (threshold : Int) (ho : ChildMap.Ordered children) :
    BKNode.find d (BKNode.mk value children) rhs threshold
      = (if d value rhs ≤ threshold then [value] else [])
        ++ ChildMap.findLoop d children rhs threshold
            ((d value rhs + threshold) + 1 - (d value rhs - threshold)).toNat
            (d value rhs - threshold) := by
  simp only [BKNode.find]
  rw [ChildMap.findRange_eq_findLoop d children rhs threshold ho _ _ _ rfl]

/-- On an ordered map, `insertAt` changes the entry under `dist` as the source does:
`children[dist]->insert(rhs)` when `children.count(dist)`, a new node otherwise; the other
entries are untouched. -/
theorem ChildMap.lookup_insertAt (d : T → T → Int) :
    ∀ (cs : ChildMap T) (dist : Int) (rhs : T) (i : Int), ChildMap.Ordered cs →
      ChildMap.lookup (ChildMap.insertAt d cs dist rhs) i
        = if i = dist then
            (match ChildMap.lookup cs dist with
              | some child => some (BKNode.insert d child rhs)
              | none => some (BKNode.mk rhs ChildMap.nil))
          else ChildMap.lookup cs i
  | ChildMap.nil, dist, rhs, i, _ => by
    simp only [ChildMap.insertAt, ChildMap.lookup]
  | ChildMap.cons key c rest, dist, rhs, i, ho => by
    simp only [ChildMap.Ordered] at ho
    simp only [ChildMap.insertAt]
    by_cases h1 : dist = key
    · subst h1
      simp only [if_true, ChildMap.lookup]
      by_cases h2 : i = dist
      · simp only [if_pos h2]
      · simp only [if_neg h2]
    · rw [if_neg h1]
      by_cases h2 : dist < key
      · rw [if_pos h2]
        have hnone : ChildMap.lookup rest dist = none := by
          apply ChildMap.lookup_eq_none
          intro hmem
          have := ho.1 dist hmem
          omega
        simp only [ChildMap.lookup, if_neg h1, hnone]
      · rw [if_neg h2]
        simp only [ChildMap.lookup, if_neg h1]
        rw [ChildMap.lookup_insertAt d rest dist rhs i ho.2.2]
        by_cases h3 : i = key
        · have h4 : ¬ i = dist := by omega
          simp only [if_pos h3, if_neg h4]
        · simp only [if_neg h3]

end LoopLemmas

/-! ## The metric used to instantiate the generic tree -/

theorem absDist_nonneg (a b : Int) : 0 ≤ absDist a b := by
  unfold absDist; split_ifs <;> omega

theorem absDist_comm (a b : Int) : absDist a b = absDist b a := by
  unfold absDist; split_ifs <;> omega

theorem absDist_eq_zero (a b : Int) : absDist a b = 0 ↔ a = b := by
  unfold absDist; split_ifs <;> omega

theorem absDist_triangle (a b c : Int) : absDist a c ≤ absDist a b + absDist b c := by
  unfold absDist; split_ifs <;> omega

/-! ## Properties of the string distance -/

section StringDistance
variable {α : Type} [DecidableEq α]

/-- C4: the triangle inequality fails for `BKNode<std::string>::distance`: from "aab" to
"abca" the distance is 3, while from "aab" to "aba" and from "aba" to "abca" it is 1 each. -/
theorem distance_triangle_fails :
    distance "aab".toList "abca".toList = 3 ∧ distance "aab".toList "aba".toList = 1
      ∧ distance "aba".toList "abca".toList = 1
      ∧ ¬ (distance "aab".toList "abca".toList
            ≤ distance "aab".toList "aba".toList + distance "aba".toList "abca".toList) := by
  decide!

/-- C5: the string distance is symmetric, `distance(a, b) == distance(b, a)` for all strings
`a` and `b`, the empty ones included. -/
theorem distance_symm (a b : List α) : distance a b = distance b a :=
  distance_comm a b

/-- C6: `distance(a, b) == 0` exactly when `a` and `b` are the same character sequence, and
`distance(a, a) == 0` for every `a`. -/
theorem distance_eq_zero_iff (a b : List α) :
    (distance a b = 0 ↔ a = b) ∧ distance a a = 0 :=
  ⟨⟨eq_of_distance_eq_zero a b, fun h => by rw [h]; exact distance_self b⟩, distance_self a⟩

/-- C7: the code gives `distance("ab", "ba") == 2`: Step 6A is skipped for the cell `(2, 2)`,
so the transposition of the first two characters costs two edits.  One character further
on the step is taken: `distance("xab", "xba") == 1`. -/
theorem distance_ab_ba :
    distance "ab".toList "ba".toList = 2 ∧ distance "xab".toList "xba".toList = 1 := by
  decide!

/-- C8: `distance("", s) == length(s)` and `distance(s, "") == length(s)` for every string
`s`; in particular `distance("", "") == 0` and `distance("", "abc") == 3`. -/
theorem distance_empty (s : List α) :
    distance ([] : List α) s = (s.length : Int) ∧ distance s ([] : List α) = (s.length : Int)
      ∧ distance ([] : List Char) [] = 0 ∧ distance [] "abc".toList = 3 := by
  refine ⟨by simp [distance], ?_, by decide!, by decide!⟩
  unfold distance
  by_cases h : s.length = 0
  · simp [h]
  · simp [h]

/-- C9: `distance("kitten", "sitting") == 3`. -/
theorem distance_kitten_sitting : distance "kitten".toList "sitting".toList = 3 := by
  decide!

end StringDistance

/-! ## Properties of the search -/

section Search
variable {T : Type} {α : Type} [DecidableEq α]

/-- C1: on the shipped string tree the search misses a match.  After inserting "aab" and
"abca", `find("aba", 1)` returns only "aab", although "abca" was inserted and is at distance 1
from "aba": it is stored under the key 3 of the root, outside the searched range `[0, 2]`. -/
theorem stringTree_find_misses_match :
    (stringTree ["aab".toList, "abca".toList]).find distance "aba".toList 1 = ["aab".toList]
      ∧ "abca".toList ∈ ["aab".toList, "abca".toList]
      ∧ distance "aba".toList "abca".toList ≤ 1
      ∧ "abca".toList ∉ (stringTree ["aab".toList, "abca".toList]).find distance "aba".toList 1 := by
  decide!

/-- Over the unbounded integers and for a metric `d`, the search of the tree built from `S`
returns the elements of `S` within the threshold of the query. -/
theorem BKTree.mem_find_build_iff (d : T → T → Int) (hsymm : ∀ a b, d a b = d b a)
    (hzero : ∀ a b, d a b = 0 ↔ a = b) (htri : ∀ a b c, d a c ≤ d a b + d b c) (S : List T)
    (q : T) (threshold : Int) (e : T) :
    e ∈ (BKTree.build d S).find d q threshold ↔ e ∈ S ∧ d q e ≤ threshold := by
  have hinv : BKTree.Inv d (BKTree.build d S) :=
    BKTree.inv_foldl d S BKTree.empty (BKTree.inv_empty d)
  constructor
  · intro h
    have hs := BKTree.find_subset_values d _ q threshold e h
    refine ⟨(BKTree.mem_values_build d (fun a b => (hzero a b).mp) S e).mp hs.1, ?_⟩
    rw [hsymm q e]
    exact hs.2
  · intro h
    apply BKTree.mem_find_of_mem_values d hsymm htri _ q threshold e hinv
    · exact (BKTree.mem_values_build d (fun a b => (hzero a b).mp) S e).mpr h.1
    · rw [hsymm e q]
      exact h.2

/-- C3: every element returned by `find(q, threshold)` on the string tree built from `S` is
an element of `S` and is within `threshold` of `q`, for every integer `threshold`. -/
theorem stringTree_find_sound (S : List (List α)) (q : List α) (threshold : Int)
    (e : List α) (h : e ∈ (stringTree S).find distance q threshold) :
    e ∈ S ∧ distance e q ≤ threshold := by
  have hs := BKTree.find_subset_values distance _ q threshold e h
  refine ⟨?_, hs.2⟩
  rcases BKTree.values_foldl_subset distance S BKTree.empty e hs.1 with h1 | h1
  · simp [BKTree.values, BKTree.empty] at h1
  · exact h1

/-- The string tree built from "book", "boot", "boo": "boo" is returned by
`find("book", 1)`, was inserted, and is within distance 1 of "book". -/
theorem stringTree_find_sound_witness :
    "boo".toList ∈ (stringTree ["book".toList, "boot".toList, "boo".toList]).find distance
        "book".toList 1
      ∧ "boo".toList ∈ ["book".toList, "boot".toList, "boo".toList]
      ∧ distance "boo".toList "book".toList ≤ 1 :=
  ⟨by decide!, stringTree_find_sound ["book".toList, "boot".toList, "boo".toList]
    "book".toList 1 "boo".toList (by decide!)⟩

/-- C10: on the string tree built from `S` (duplicates allowed, any order), `find(q, 0)` is
the one-element sequence `[q]` when `q` occurs in `S` and the empty sequence otherwise. -/
theorem stringTree_find_zero (S : List (List α)) (q : List α) :
    (stringTree S).find distance q 0 = if q ∈ S then [q] else [] := by
  have key := BKTree.find_zero_foldl distance distance_nonneg
    (fun a b => ⟨eq_of_distance_eq_zero a b, fun h => by rw [h]; exact distance_self b⟩)
    q S BKTree.empty (BKTree.inv_empty distance)
  unfold stringTree BKTree.build
  by_cases h : q ∈ S
  · rw [if_pos h] at key ⊢
    exact key
  · rw [if_neg h] at key ⊢
    exact key

end Search


/-! ## Bounds of the string distance -/

section DistanceBounds
variable {α : Type} [DecidableEq α]

theorem cellValue_upper (source target : List α) (M : Tmatrix) (i j : Nat) :
    cellValue source target M i j ≤ M (i - 1) (j - 1) + 1 := by
  unfold cellValue
  simp only
  split_ifs <;> omega

/-- Every cell of the final matrix is at most the larger of its indices. -/
theorem finalMatrix_upper (source target : List α) (i : Nat) :
    ∀ j : Nat, i ≤ source.length → j ≤ target.length →
      finalMatrix source target i j ≤ max (i : Int) (j : Int) := by
  induction i with
  | zero =>
    intro j _ hj
    rw [finalMatrix_row _ _ _ hj]
    omega
  | succ i ih =>
    intro j hi hj
    by_cases hj0 : j = 0
    · subst hj0
      rw [finalMatrix_col _ _ _ hi]
      omega
    · rw [finalMatrix_cell source target (i + 1) j (by omega) hi (by omega) hj]
      have h1 := cellValue_upper source target (finalMatrix source target) (i + 1) j
      have h2 := ih (j - 1) (by omega) (by omega)
      simp only [Nat.add_sub_cancel] at h1
      omega

theorem distance_lower (a b : List α) :
    (a.length : Int) - b.length ≤ distance a b ∧ (b.length : Int) - a.length ≤ distance a b := by
  unfold distance
  simp only
  split_ifs with hn hm
  · omega
  · omega
  · exact finalMatrix_lower a b _ _ _ rfl (le_refl _) (le_refl _)

theorem distance_upper (a b : List α) :
    distance a b ≤ max (a.length : Int) (b.length : Int) := by
  unfold distance
  simp only
  split_ifs with hn hm
  · omega
  · omega
  · exact finalMatrix_upper a b _ _ (le_refl _) (le_refl _)

end DistanceBounds

/-! ## The bucket invariant on direct children -/

section KeysExactLemmas
variable {T : Type}

theorem BKNode.get_insert (d : T → T → Int) (t : BKNode T) (x : T) :
    BKNode.get (BKNode.insert d t x) = BKNode.get t := by
  cases t with
  | mk v cs =>
    simp only [BKNode.insert]
    split_ifs <;> rfl

mutual
theorem BKNode.keysExact_insert (d : T → T → Int) :
    ∀ (t : BKNode T) (x : T), BKNode.KeysExact d t → BKNode.KeysExact d (BKNode.insert d t x)
  | BKNode.mk v cs, x, h => by
    simp only [BKNode.insert]
    by_cases hd : d v x ≠ 0
    · rw [if_pos hd]
      simp only [BKNode.KeysExact] at h ⊢
      exact ChildMap.keysExact_insertAt d cs v (d v x) x hd rfl h
    · rw [if_neg hd]
      exact h
theorem ChildMap.keysExact_insertAt (d : T → T → Int) :
    ∀ (cs : ChildMap T) (v : T) (k : Int) (x : T), k ≠ 0 → d v x = k →
      ChildMap.KeysExact d cs v → ChildMap.KeysExact d (ChildMap.insertAt d cs k x) v
  | ChildMap.nil, v, k, x, hk, hx, _ => by
    simp only [ChildMap.insertAt, ChildMap.KeysExact, BKNode.get, BKNode.KeysExact, and_true]
    exact ⟨hx.symm, hk⟩
  | ChildMap.cons key c rest, v, k, x, hk, hx, h => by
    simp only [ChildMap.KeysExact] at h
    simp only [ChildMap.insertAt]
    by_cases h1 : k = key
    · rw [if_pos h1]
      simp only [ChildMap.KeysExact]
      rw [BKNode.get_insert]
      exact ⟨h.1, h.2.1, BKNode.keysExact_insert d c x h.2.2.1, h.2.2.2⟩
    · rw [if_neg h1]
      by_cases h2 : k < key
      · rw [if_pos h2]
        simp only [ChildMap.KeysExact, BKNode.get, BKNode.KeysExact, true_and]
        exact ⟨hx.symm, hk, h⟩
      · rw [if_neg h2]
        simp only [ChildMap.KeysExact]
        exact ⟨h.1, h.2.1, h.2.2.1, ChildMap.keysExact_insertAt d rest v k x hk hx h.2.2.2⟩
end

theorem BKTree.keysExact_insert_root (d : T → T → Int) (t : BKTree T) (x : T)
    (h : BKTree.KeysExact d t) : BKTree.KeysExact d (BKTree.insert d t x) := by
  unfold BKTree.KeysExact BKTree.insert at *
  cases hr : t.root with
  | none => simp [BKNode.leaf, BKNode.KeysExact, ChildMap.KeysExact]
  | some r =>
    rw [hr] at h
    exact BKNode.keysExact_insert d r x h

theorem BKTree.keysExact_foldl (d : T → T → Int) :
    ∀ (S : List T) (t : BKTree T), BKTree.KeysExact d t →
      BKTree.KeysExact d (S.foldl (BKTree.insert d) t)
  | [], _, h => h
  | x :: S, t, h =>
    BKTree.keysExact_foldl d S (BKTree.insert d t x) (BKTree.keysExact_insert_root d t x h)

theorem BKTree.keysExact_build (d : T → T → Int) (S : List T) :
    BKTree.KeysExact d (BKTree.build d S) :=
  BKTree.keysExact_foldl d S BKTree.empty (by simp [BKTree.KeysExact, BKTree.empty])

mutual
theorem BKNode.allKeys_pos (d : T → T → Int) (hnn : ∀ a b, 0 ≤ d a b) :
    ∀ (t : BKNode T), BKNode.KeysExact d t → ∀ k ∈ BKNode.allKeys t, 0 < k
  | BKNode.mk v cs, h, k, hk => by
    simp only [BKNode.KeysExact] at h
    simp only [BKNode.allKeys] at hk
    exact ChildMap.childKeys_pos d hnn cs v h k hk
theorem ChildMap.childKeys_pos (d : T → T → Int) (hnn : ∀ a b, 0 ≤ d a b) :
    ∀ (cs : ChildMap T) (v : T), ChildMap.KeysExact d cs v → ∀ k ∈ ChildMap.allKeys cs, 0 < k
  | ChildMap.nil, _, _, k, hk => by
    simp [ChildMap.allKeys] at hk
  | ChildMap.cons key c rest, v, h, k, hk => by
    simp only [ChildMap.KeysExact] at h
    simp only [ChildMap.allKeys, List.mem_cons, List.mem_append] at hk
    rcases hk with hk | hk | hk
    · have h1 := hnn v (BKNode.get c)
      have h2 := h.1
      have h3 := h.2.1
      omega
    · exact BKNode.allKeys_pos d hnn c h.2.2.1 k hk
    · exact ChildMap.childKeys_pos d hnn rest v h.2.2.2 k hk
end

end KeysExactLemmas

/-! ## Repeated insertion and the stored values -/

section StoredValues
variable {T : Type}

theorem ChildMap.dist_mem_keys (d : T → T → Int) :
    ∀ (cs : ChildMap T) (v x : T), ChildMap.Bucketed d cs v → x ∈ ChildMap.values cs →
      d v x ∈ ChildMap.keys cs
  | ChildMap.nil, _, _, _, hx => by
    simp [ChildMap.values] at hx
  | ChildMap.cons key c rest, v, x, hb, hx => by
    simp only [ChildMap.Bucketed] at hb
    simp only [ChildMap.values, List.mem_append] at hx
    simp only [ChildMap.keys, List.mem_cons]
    rcases hx with hx | hx
    · exact Or.inl (hb.2.1 x hx)
    · exact Or.inr (ChildMap.dist_mem_keys d rest v x hb.2.2.2 hx)

mutual
/-- Inserting a value that is already stored leaves the subtree as it is. -/
theorem BKNode.insert_eq_self (d : T → T → Int) (hself : ∀ a, d a a = 0) :
    ∀ (t : BKNode T) (x : T), BKNode.Ordered t → BKNode.Bucketed d t →
      x ∈ BKNode.values t → BKNode.insert d t x = t
  | BKNode.mk v cs, x, ho, hb, hx => by
    simp only [BKNode.Ordered] at ho
    simp only [BKNode.Bucketed] at hb
    simp only [BKNode.values, List.mem_cons] at hx
    simp only [BKNode.insert]
    by_cases hd : d v x ≠ 0
    · rw [if_pos hd]
      have hx2 : x ∈ ChildMap.values cs := by
        rcases hx with hx | hx
        · exfalso
          apply hd
          rw [hx]
          exact hself v
        · exact hx
      rw [ChildMap.insertAt_eq_self d hself cs v (d v x) x ho hb hx2 rfl]
    · rw [if_neg hd]
theorem ChildMap.insertAt_eq_self (d : T → T → Int) (hself : ∀ a, d a a = 0) :
    ∀ (cs : ChildMap T) (v : T) (k : Int) (x : T), ChildMap.Ordered cs →
      ChildMap.Bucketed d cs v → x ∈ ChildMap.values cs → d v x = k →
      ChildMap.insertAt d cs k x = cs
  | ChildMap.nil, _, _, _, _, _, hx, _ => by
    simp [ChildMap.values] at hx
  | ChildMap.cons key c rest, v, k, x, ho, hb, hx, hk => by
    simp only [ChildMap.Ordered] at ho
    simp only [ChildMap.Bucketed] at hb
    simp only [ChildMap.values, List.mem_append] at hx
    simp only [ChildMap.insertAt]
    by_cases h1 : k = key
    · rw [if_pos h1]
      have hxc : x ∈ BKNode.values c := by
        rcases hx with hx | hx
        · exact hx
        · exfalso
          have h2 := ChildMap.dist_mem_keys d rest v x hb.2.2.2 hx
          have h3 := ho.1 (d v x) h2
          omega
      rw [BKNode.insert_eq_self d hself c x ho.2.1 hb.2.2.1 hxc]
    · rw [if_neg h1]
      have hxr : x ∈ ChildMap.values rest := by
        rcases hx with hx | hx
        · exfalso
          have := hb.2.1 x hx
          omega
        · exact hx
      have h2 := ChildMap.dist_mem_keys d rest v x hb.2.2.2 hxr
      have h3 := ho.1 (d v x) h2
      have h4 : ¬ k < key := by omega
      rw [if_neg h4, ChildMap.insertAt_eq_self d hself rest v k x ho.2.2 hb.2.2.2 hxr hk]
end

mutual
/-- Inserting a value that is not stored adds it once and keeps every other value. -/
theorem BKNode.values_insert_perm (d : T → T → Int) (hz : ∀ a b, d a b = 0 → a = b) :
    ∀ (t : BKNode T) (x : T), x ∉ BKNode.values t →
      (BKNode.values (BKNode.insert d t x)).Perm (x :: BKNode.values t)
  | BKNode.mk v cs, x, hx => by
    simp only [BKNode.values, List.mem_cons, not_or] at hx
    simp only [BKNode.insert]
    by_cases hd : d v x ≠ 0
    · rw [if_pos hd]
      simp only [BKNode.values]
      exact ((ChildMap.values_insertAt_perm d hz cs (d v x) x hx.2).cons v).trans
        (List.Perm.swap x v _)
    · exfalso
      exact hx.1 (hz v x (not_not.mp hd)).symm
theorem ChildMap.values_insertAt_perm (d : T → T → Int) (hz : ∀ a b, d a b = 0 → a = b) :
    ∀ (cs : ChildMap T) (k : Int) (x : T), x ∉ ChildMap.values cs →
      (ChildMap.values (ChildMap.insertAt d cs k x)).Perm (x :: ChildMap.values cs)
  | ChildMap.nil, k, x, _ => by
    simp only [ChildMap.insertAt, ChildMap.values, BKNode.values, List.append_nil]
    exact List.Perm.refl _
  | ChildMap.cons key c rest, k, x, hx => by
    simp only [ChildMap.values, List.mem_append, not_or] at hx
    simp only [ChildMap.insertAt]
    by_cases h1 : k = key
    · rw [if_pos h1]
      simp only [ChildMap.values]
      exact (BKNode.values_insert_perm d hz c x hx.1).append_right _
    · rw [if_neg h1]
      by_cases h2 : k < key
      · rw [if_pos h2]
        simp only [ChildMap.values, BKNode.values, List.singleton_append, List.nil_append,
          List.cons_append]
        exact List.Perm.refl _
      · rw [if_neg h2]
        simp only [ChildMap.values]
        exact ((ChildMap.values_insertAt_perm d hz rest k x hx.2).append_left _).trans
          List.perm_middle
end

mutual
/-- The values stored before an insertion are still stored after it, in the same order. -/
theorem BKNode.values_sublist_insert (d : T → T → Int) :
    ∀ (t : BKNode T) (x : T),
      (BKNode.values t).Sublist (BKNode.values (BKNode.insert d t x))
  | BKNode.mk v cs, x => by
    simp only [BKNode.insert]
    by_cases hd : d v x ≠ 0
    · rw [if_pos hd]
      simp only [BKNode.values]
      exact List.cons_sublist_cons.mpr (ChildMap.values_sublist_insertAt d cs (d v x) x)
    · rw [if_neg hd]
theorem ChildMap.values_sublist_insertAt (d : T → T → Int) :
    ∀ (cs : ChildMap T) (k : Int) (x : T),
      (ChildMap.values cs).Sublist (ChildMap.values (ChildMap.insertAt d cs k x))
  | ChildMap.nil, k, x => by
    simp only [ChildMap.values]
    exact List.nil_sublist _
  | ChildMap.cons key c rest, k, x => by
    simp only [ChildMap.insertAt]
    by_cases h1 : k = key
    · rw [if_pos h1]
      simp only [ChildMap.values]
      exact List.Sublist.append (BKNode.values_sublist_insert d c x) (List.Sublist.refl _)
    · rw [if_neg h1]
      by_cases h2 : k < key
      · rw [if_pos h2]
        simp only [ChildMap.values]
        exact List.sublist_append_right _ _
      · rw [if_neg h2]
        simp only [ChildMap.values]
        exact List.Sublist.append (List.Sublist.refl _)
          (ChildMap.values_sublist_insertAt d rest k x)
end

theorem BKTree.values_sublist_insert_root (d : T → T → Int) (t : BKTree T) (x : T) :
    (BKTree.values t).Sublist (BKTree.values (BKTree.insert d t x)) := by
  unfold BKTree.values BKTree.insert
  cases hr : t.root with
  | none => exact List.nil_sublist _
  | some r => exact BKNode.values_sublist_insert d r x

/-- Inserting a stored value again leaves the root of the tree as it is. -/
theorem BKTree.root_insert_of_mem (d : T → T → Int) (hself : ∀ a, d a a = 0) (t : BKTree T)
    (x : T) (hinv : BKTree.Inv d t) (hx : x ∈ BKTree.values t) :
    (BKTree.insert d t x).root = t.root := by
  unfold BKTree.Inv at hinv
  unfold BKTree.values at hx
  unfold BKTree.insert
  cases hr : t.root with
  | none => rw [hr] at hx; simp at hx
  | some r =>
    rw [hr] at hx hinv
    simp only
    rw [BKNode.insert_eq_self d hself r x hinv.1 hinv.2 hx]

theorem BKTree.nodup_insert (d : T → T → Int) (hz : ∀ a b, d a b = 0 ↔ a = b) (t : BKTree T)
    (x : T) (hinv : BKTree.Inv d t) (hn : (BKTree.values t).Nodup) :
    (BKTree.values (BKTree.insert d t x)).Nodup := by
  classical
  by_cases hx : x ∈ BKTree.values t
  · have hroot := BKTree.root_insert_of_mem d (fun a => (hz a a).mpr rfl) t x hinv hx
    unfold BKTree.values at hn ⊢
    rw [hroot]
    exact hn
  · unfold BKTree.values at hn hx ⊢
    unfold BKTree.insert
    cases hr : t.root with
    | none => simp [BKNode.leaf, BKNode.values, ChildMap.values]
    | some r =>
      rw [hr] at hn hx
      simp only at hn hx ⊢
      have hp := BKNode.values_insert_perm d (fun a b => (hz a b).mp) r x hx
      exact hp.nodup_iff.mpr (List.nodup_cons.mpr ⟨hx, hn⟩)

theorem BKTree.nodup_foldl (d : T → T → Int) (hz : ∀ a b, d a b = 0 ↔ a = b) :
    ∀ (S : List T) (t : BKTree T), BKTree.Inv d t → (BKTree.values t).Nodup →
      (BKTree.values (S.foldl (BKTree.insert d) t)).Nodup
  | [], _, _, hn => hn
  | x :: S, t, hinv, hn =>
    BKTree.nodup_foldl d hz S (BKTree.insert d t x) (BKTree.inv_insert d t x hinv)
      (BKTree.nodup_insert d hz t x hinv hn)

theorem BKTree.node_count_foldl (d : T → T → Int) :
    ∀ (S : List T) (t : BKTree T),
      (S.foldl (BKTree.insert d) t).node_count = t.node_count + (S.length : Int)
  | [], t => by simp
  | x :: S, t => by
    rw [List.foldl_cons, BKTree.node_count_foldl d S (BKTree.insert d t x)]
    simp only [BKTree.insert, List.length_cons, Nat.cast_add, Nat.cast_one]
    omega

end StoredValues

/-! ## The search as the threshold varies -/

section Thresholds
variable {T : Type}

mutual
theorem BKNode.find_mono (d : T → T → Int) (e : T) :
    ∀ (t : BKNode T) (q : T) (th1 th2 : Int), th1 ≤ th2 →
      e ∈ BKNode.find d t q th1 → e ∈ BKNode.find d t q th2
  | BKNode.mk v cs, q, th1, th2, hth, h => by
    simp only [BKNode.find, List.mem_append] at h ⊢
    rcases h with h | h
    · left
      by_cases hd : d v q ≤ th1
      · rw [if_pos hd] at h
        rw [if_pos (le_trans hd hth)]
        exact h
      · rw [if_neg hd] at h
        simp at h
    · right
      exact ChildMap.findRange_mono d e cs q th1 th2 _ _ _ _ hth (by omega) (by omega) h
theorem ChildMap.findRange_mono (d : T → T → Int) (e : T) :
    ∀ (cs : ChildMap T) (q : T) (th1 th2 lo1 hi1 lo2 hi2 : Int), th1 ≤ th2 → lo2 ≤ lo1 →
      hi1 ≤ hi2 → e ∈ ChildMap.findRange d cs q th1 lo1 hi1 →
      e ∈ ChildMap.findRange d cs q th2 lo2 hi2
  | ChildMap.nil, _, _, _, _, _, _, _, _, _, _, h => by
    simp [ChildMap.findRange] at h
  | ChildMap.cons key c rest, q, th1, th2, lo1, hi1, lo2, hi2, hth, hlo, hhi, h => by
    simp only [ChildMap.findRange, List.mem_append] at h ⊢
    rcases h with h | h
    · left
      by_cases hk : lo1 ≤ key ∧ key ≤ hi1
      · rw [if_pos hk] at h
        have hk2 : lo2 ≤ key ∧ key ≤ hi2 := by omega
        rw [if_pos hk2]
        exact BKNode.find_mono d e c q th1 th2 hth h
      · rw [if_neg hk] at h
        simp at h
    · right
      exact ChildMap.findRange_mono d e rest q th1 th2 lo1 hi1 lo2 hi2 hth hlo hhi h
end

/-- With a non-negative distance and a negative threshold the node is not reported and the
searched range of keys is empty. -/
theorem BKNode.find_neg (d : T → T → Int) (hnn : ∀ a b, 0 ≤ d a b) (t : BKNode T) (q : T)
    (th : Int) (hth : th < 0) : BKNode.find d t q th = [] := by
  cases t with
  | mk v cs =>
    simp only [BKNode.find]
    have h1 := hnn v q
    have h2 : ¬ d v q ≤ th := by omega
    rw [if_neg h2, List.nil_append]
    apply ChildMap.findRange_eq_nil
    intro k _ hr
    omega

end Thresholds

/-! ## The range search in 32-bit arithmetic -/

section Find32Lemmas
variable {T : Type}

theorem checkedInt_of_fits (x : Int) (h1 : INT_MIN ≤ x) (h2 : x ≤ INT_MAX) :
    checkedInt x = Outcome.done x := by
  unfold checkedInt
  rw [if_pos ⟨h1, h2⟩]

theorem checkedInt_of_gt (x : Int) (h : INT_MAX < x) : checkedInt x = Outcome.overflow := by
  unfold checkedInt
  rw [if_neg (fun hc => by omega)]

/-- When `dmax` is below `INT_MAX` the counter never overflows, and the checked loop computes
what the loop over the unbounded integers computes. -/
theorem forLoop32_eq_findLoop (d : T → T → Int) (cs : ChildMap T) (q : T) (th : Int)
    (body : Int → Outcome (List T)) (dmax : Int) (hmax : dmax < INT_MAX) :
    ∀ (count fuel : Nat) (i : Int) (results : List T), INT_MIN ≤ i →
      count = (dmax + 1 - i).toNat → count < fuel →
      (∀ j, i ≤ j → j ≤ dmax →
        body j = Outcome.done
          (match ChildMap.lookup cs j with
            | some child => BKNode.find d child q th
            | none => [])) →
      forLoop32 body dmax fuel i results
        = Outcome.done (results ++ ChildMap.findLoop d cs q th count i)
  | 0, fuel, i, results, _, hc, hf, _ => by
    cases fuel with
    | zero => omega
    | succ fuel =>
      have hlt : ¬ i ≤ dmax := by omega
      simp only [forLoop32, ChildMap.findLoop, List.append_nil]
      rw [if_neg hlt]
  | count + 1, fuel, i, results, hi, hc, hf, hb => by
    cases fuel with
    | zero => omega
    | succ fuel =>
      have hle : i ≤ dmax := by omega
      simp only [forLoop32, ChildMap.findLoop]
      rw [if_pos hle, hb i (le_refl i) hle]
      simp only
      rw [checkedInt_of_fits (i + 1) (by omega) (by omega)]
      simp only
      rw [forLoop32_eq_findLoop d cs q th body dmax hmax count fuel (i + 1) _ (by omega)
        (by omega) (by omega) (fun j h1 h2 => hb j (by omega) h2), List.append_assoc]

/-- When `dmax` is `INT_MAX` the loop condition never fails, so the loop does not end with a
result: the counter is incremented past `INT_MAX` or the budget runs out. -/
theorem forLoop32_never_done (body : Int → Outcome (List T)) :
    ∀ (fuel : Nat) (i : Int) (results r : List T), i ≤ INT_MAX →
      forLoop32 body INT_MAX fuel i results ≠ Outcome.done r
  | 0, _, _, _, _ => by
    simp [forLoop32]
  | fuel + 1, i, results, r, hi => by
    simp only [forLoop32]
    rw [if_pos hi]
    cases hbody : body i with
    | done part =>
      simp only
      by_cases h2 : i + 1 ≤ INT_MAX
      · by_cases h1 : INT_MIN ≤ i + 1
        · rw [checkedInt_of_fits (i + 1) h1 h2]
          simp only
          exact forLoop32_never_done body fuel (i + 1) _ r h2
        · unfold checkedInt
          rw [if_neg (fun hc => h1 hc.1)]
          simp
      · rw [checkedInt_of_gt (i + 1) (by omega)]
        simp
    | overflow => simp
    | outOfFuel => simp

theorem BKNode.height_pos (t : BKNode T) : 0 < BKNode.height t := by
  cases t with
  | mk v cs => simp [BKNode.height]

mutual
/-- With every `dist - threshold` and `dist + threshold` in range and `dist + threshold`
below `INT_MAX`, the 32-bit search returns what the search over the integers returns, given
a budget above the height plus the length of a loop. -/
theorem BKNode.find32_eq_find (d : T → T → Int) (q : T) (th : Int) :
    ∀ (t : BKNode T), BKNode.Ordered t →
      (∀ v ∈ BKNode.values t, INT_MIN ≤ d v q - th ∧ d v q + th < INT_MAX
        ∧ d v q - th ≤ INT_MAX ∧ INT_MIN ≤ d v q + th) →
      ∀ fuel : Nat, BKNode.height t + (2 * th + 1).toNat < fuel →
        BKNode.find32 d fuel t q th = Outcome.done (BKNode.find d t q th)
  | BKNode.mk v cs, ho, hfit, fuel, hf => by
    simp only [BKNode.Ordered] at ho
    simp only [BKNode.height] at hf
    cases fuel with
    | zero => omega
    | succ fuel =>
      have hv := hfit v (by simp [BKNode.values])
      simp only [BKNode.find32]
      rw [checkedInt_of_fits _ hv.1 hv.2.2.1]
      simp only
      rw [checkedInt_of_fits _ hv.2.2.2 (by omega)]
      simp only
      rw [BKNode.find_eq_loop d v cs q th ho]
      apply forLoop32_eq_findLoop d cs q th _ _ hv.2.1 _ _ _ _ hv.1 rfl (by omega)
      intro j _ _
      cases hl : ChildMap.lookup cs j with
      | none => rfl
      | some c =>
        simp only
        rw [ChildMap.find32_child_eq_find d q th cs ho
          (fun u hu => hfit u (by simp [BKNode.values, hu])) j c hl fuel (by omega)]
theorem ChildMap.find32_child_eq_find (d : T → T → Int) (q : T) (th : Int) :
    ∀ (cs : ChildMap T), ChildMap.Ordered cs →
      (∀ v ∈ ChildMap.values cs, INT_MIN ≤ d v q - th ∧ d v q + th < INT_MAX
        ∧ d v q - th ≤ INT_MAX ∧ INT_MIN ≤ d v q + th) →
      ∀ (j : Int) (c : BKNode T), ChildMap.lookup cs j = some c →
      ∀ fuel : Nat, ChildMap.height cs + 1 + (2 * th + 1).toNat < fuel + 1 →
        BKNode.find32 d fuel c q th = Outcome.done (BKNode.find d c q th)
  | ChildMap.nil, _, _, j, c, hl, _, _ => by
    simp [ChildMap.lookup] at hl
  | ChildMap.cons key c0 rest, ho, hfit, j, c, hl, fuel, hf => by
    simp only [ChildMap.Ordered] at ho
    simp only [ChildMap.height] at hf
    simp only [ChildMap.lookup] at hl
    by_cases hj : j = key
    · rw [if_pos hj] at hl
      have hc : c0 = c := Option.some.inj hl
      subst hc
      exact BKNode.find32_eq_find d q th c0 ho.2.1
        (fun u hu => hfit u (by simp [ChildMap.values, hu])) fuel (by omega)
    · rw [if_neg hj] at hl
      exact ChildMap.find32_child_eq_find d q th rest ho.2.2
        (fun u hu => hfit u (by simp [ChildMap.values, hu])) j c hl fuel (by omega)
end

/-- When `dist + threshold` is exactly `INT_MAX` at the node, the 32-bit search does not
return a result, whatever the budget. -/
theorem BKNode.find32_never_done (d : T → T → Int) (v : T) (cs : ChildMap T) (q : T)
    (th : Int) (h : d v q + th = INT_MAX) (fuel : Nat) (r : List T) :
    BKNode.find32 d fuel (BKNode.mk v cs) q th ≠ Outcome.done r := by
  cases fuel with
  | zero => simp [BKNode.find32]
  | succ fuel =>
    simp only [BKNode.find32]
    unfold checkedInt
    by_cases h1 : INT_MIN ≤ d v q - th ∧ d v q - th ≤ INT_MAX
    · rw [if_pos h1]
      simp only
      by_cases h2 : INT_MIN ≤ d v q + th ∧ d v q + th ≤ INT_MAX
      · rw [if_pos h2]
        simp only
        rw [h]
        exact forLoop32_never_done _ fuel _ _ r h1.2
      · rw [if_neg h2]
        simp
    · rw [if_neg h1]
      simp

/-- The 32-bit search of a tree with ordered child maps, when every bound fits. -/
theorem BKTree.find32_eq_find_root (d : T → T → Int) (q : T) (th : Int) (t : BKTree T)
    (ho : BKTree.Ordered t) (hfit : Fits32 d q th (BKTree.values t)) (fuel : Nat)
    (hf : BKTree.height t + (2 * th + 1).toNat < fuel) :
    BKTree.find32 d fuel t q th = Outcome.done (BKTree.find d t q th) := by
  unfold BKTree.Ordered at ho
  unfold BKTree.values at hfit
  unfold BKTree.height at hf
  unfold BKTree.find32 BKTree.find
  cases hr : t.root with
  | none => rfl
  | some r =>
    rw [hr] at ho hfit hf
    simp only at ho hfit hf ⊢
    apply BKNode.find32_eq_find d q th r ho _ fuel hf
    intro v hv
    have h := hfit v hv
    exact ⟨h.1, h.2.2.2, h.2.1, h.2.2.1⟩

theorem BKTree.ordered_of_inv (d : T → T → Int) (t : BKTree T) (h : BKTree.Inv d t) :
    BKTree.Ordered t := by
  unfold BKTree.Inv at h
  unfold BKTree.Ordered
  cases hr : t.root with
  | none => trivial
  | some r => rw [hr] at h; exact h.1

end Find32Lemmas

/-! ## Insertion, stored values and counting -/

section InsertionClaims
variable {T : Type} {α : Type} [DecidableEq α]

theorem stringTree_inv (S : List (List α)) : BKTree.Inv distance (stringTree S) :=
  BKTree.inv_foldl distance S BKTree.empty (BKTree.inv_empty distance)

theorem stringTree_mem_values (S : List (List α)) (u : List α) :
    u ∈ BKTree.values (stringTree S) ↔ u ∈ S :=
  BKTree.mem_values_build distance eq_of_distance_eq_zero S u

/-- C11: inserting again a string `x` that occurs in `S` leaves the node graph of the tree
built from `S` unchanged (the same root with the same values and child keys, no new node);
only `node_count` changes, by one. -/
theorem stringTree_insert_again (S : List (List α)) (x : List α) (hx : x ∈ S) :
    ((stringTree S).insert distance x).root = (stringTree S).root
      ∧ ((stringTree S).insert distance x).node_count = (stringTree S).node_count + 1 :=
  ⟨BKTree.root_insert_of_mem distance distance_self (stringTree S) x (stringTree_inv S)
    ((stringTree_mem_values S x).mpr hx), rfl⟩

/-- The tree built from "book", "boo": inserting "boo" again keeps the root and adds one to
`node_count`. -/
theorem stringTree_insert_again_witness :
    "boo".toList ∈ ["book".toList, "boo".toList]
      ∧ ((stringTree ["book".toList, "boo".toList]).insert distance "boo".toList).root
          = (stringTree ["book".toList, "boo".toList]).root
      ∧ ((stringTree ["book".toList, "boo".toList]).insert distance "boo".toList).node_count
          = (stringTree ["book".toList, "boo".toList]).node_count + 1 :=
  ⟨by decide!, stringTree_insert_again ["book".toList, "boo".toList] "boo".toList
    (by decide!)⟩

/-- C12: the values held by the nodes of the tree built from `S` are pairwise distinct and
are, as a set, the elements of `S`; and an insertion keeps every stored value, unchanged and
in place. -/
theorem stringTree_values (S : List (List α)) :
    (BKTree.values (stringTree S)).Nodup
      ∧ (∀ u, u ∈ BKTree.values (stringTree S) ↔ u ∈ S)
      ∧ (∀ x, (BKTree.values (stringTree S)).Sublist
          (BKTree.values ((stringTree S).insert distance x))) := by
  refine ⟨?_, stringTree_mem_values S, fun x => BKTree.values_sublist_insert_root distance _ x⟩
  exact BKTree.nodup_foldl distance
    (fun a b => ⟨eq_of_distance_eq_zero a b, fun h => by rw [h]; exact distance_self b⟩)
    S BKTree.empty (BKTree.inv_empty distance) (by simp [BKTree.values, BKTree.empty])

/-- C16: a freshly constructed tree has `size() == 0`, and `find` on it returns the empty
sequence for every query and every threshold. -/
theorem empty_tree (d : T → T → Int) (q : T) (threshold : Int) :
    (BKTree.empty : BKTree T).size = 0 ∧ BKTree.find d BKTree.empty q threshold = [] :=
  ⟨rfl, rfl⟩

/-- C17: after inserting the elements of `S` into an empty tree, `size()` is the length of
`S`, duplicates included; it can exceed the number of nodes: inserting "a" twice gives size 2
and one stored value.  `find` returns a sequence and leaves the tree, and so `size()`, as it
is. -/
theorem size_counts_inserts (d : T → T → Int) (S : List T) :
    (BKTree.build d S).size = (S.length : Int)
      ∧ (stringTree ["a".toList, "a".toList]).size = 2
      ∧ (BKTree.values (stringTree ["a".toList, "a".toList])).length = 1 := by
  refine ⟨?_, by decide!, by decide!⟩
  unfold BKTree.size BKTree.build
  rw [BKTree.node_count_foldl d S BKTree.empty]
  simp [BKTree.empty]

/-- C18: in every tree reachable from the empty tree by insertions, each child stored under
a key `k` of a node holds a value at distance exactly `k` from the node's value, and
`k` is not `0`; and `BKNode::insert` preserves this at every node of a subtree. -/
theorem bucket_invariant (S : List (List α)) :
    BKTree.KeysExact distance (stringTree S)
      ∧ ∀ (n : BKNode (List α)) (x : List α), BKNode.KeysExact distance n →
          BKNode.KeysExact distance (BKNode.insert distance n x) :=
  ⟨BKTree.keysExact_build distance S, fun n x h => BKNode.keysExact_insert distance n x h⟩

/-- C19: `|length(a) - length(b)| <= distance(a, b) <= max(length(a), length(b))`; the
distance is never negative, and every child key of a tree built by insertions is positive. -/
theorem distance_bounds (a b : List α) :
    |(a.length : Int) - (b.length : Int)| ≤ distance a b
      ∧ distance a b ≤ max (a.length : Int) (b.length : Int)
      ∧ 0 ≤ distance a b
      ∧ ∀ S : List (List α), ∀ k ∈ BKTree.allKeys (stringTree S), 0 < k := by
  refine ⟨?_, distance_upper a b, distance_nonneg a b, ?_⟩
  · have h := distance_lower a b
    exact abs_le.mpr ⟨by omega, by omega⟩
  · intro S k hk
    have hinv := BKTree.keysExact_build distance S
    unfold stringTree at hk
    unfold BKTree.KeysExact at hinv
    unfold BKTree.allKeys at hk
    cases hr : (BKTree.build distance S).root with
    | none => rw [hr] at hk; simp at hk
    | some r =>
      rw [hr] at hk hinv
      exact BKNode.allKeys_pos distance distance_nonneg r hinv k hk

end InsertionClaims

/-! ## The search: thresholds, the scenario and 32-bit arithmetic -/

section SearchClaims
variable {T : Type} {α : Type} [DecidableEq α]

/-- Over the unbounded integers, a larger threshold returns every element a smaller one
returns. -/
theorem BKTree.find_subset_of_le (d : T → T → Int) (t : BKTree T) (q : T)
    (threshold1 threshold2 : Int) (h : threshold1 ≤ threshold2) (e : T)
    (he : e ∈ t.find d q threshold1) : e ∈ t.find d q threshold2 := by
  unfold BKTree.find at he ⊢
  cases hr : t.root with
  | none => rw [hr] at he; simp at he
  | some r =>
    rw [hr] at he
    exact BKNode.find_mono d e r q threshold1 threshold2 h he

/-- C14, as the code behaves: after inserting "book", "books", "boo", "boot", "cake",
`find("book", 1)` contains "boot", which is at distance 1 from "book" (one substitution),
so the result is not the set of "book", "books", "boo". -/
theorem scenario_returns_boot :
    "boot".toList ∈ (stringTree ["book".toList, "books".toList, "boo".toList, "boot".toList,
        "cake".toList]).find distance "book".toList 1
      ∧ distance "boot".toList "book".toList = 1
      ∧ "boot".toList ∉ ["book".toList, "books".toList, "boo".toList] := by
  decide!

/-- C14, amended: after inserting "book", "books", "boo", "boot", "cake" in that order,
`find("book", 1)` returns "book", "books", "boo", "boot", each within distance 1 of "book",
and does not return "cake", which is at distance 4. -/
theorem scenario_find_book :
    (stringTree ["book".toList, "books".toList, "boo".toList, "boot".toList,
        "cake".toList]).find distance "book".toList 1
        = ["book".toList, "books".toList, "boo".toList, "boot".toList]
      ∧ distance "book".toList "book".toList = 0
      ∧ distance "books".toList "book".toList = 1
      ∧ distance "boo".toList "book".toList = 1
      ∧ distance "boot".toList "book".toList = 1
      ∧ distance "cake".toList "book".toList = 4
      ∧ "cake".toList ∉ (stringTree ["book".toList, "books".toList, "boo".toList,
          "boot".toList, "cake".toList]).find distance "book".toList 1 := by
  decide!

/-- C20, as the code behaves: in 32-bit arithmetic, with the threshold `INT_MAX`, the search
of the tree holding "a" for "b" computes `dmax = 1 + INT_MAX`, which overflows; and the
search for "a" has `dmax = INT_MAX`, so its loop never ends with a result: the counter is
incremented past `INT_MAX`. -/
theorem find32_overflows :
    (0 ≤ INT_MAX ∧ INT_MAX ≤ INT_MAX)
      ∧ INT_MAX < distance "a".toList "b".toList + INT_MAX
      ∧ (∀ fuel : Nat, BKNode.find32 distance (fuel + 1) (BKNode.leaf "a".toList)
          "b".toList INT_MAX = Outcome.overflow)
      ∧ (∀ (fuel : Nat) (r : List (List Char)),
          BKNode.find32 distance fuel (BKNode.leaf "a".toList) "a".toList INT_MAX
            ≠ Outcome.done r) := by
  refine ⟨by decide, by decide!, fun fuel => rfl, fun fuel r => ?_⟩
  exact BKNode.find32_never_done distance "a".toList ChildMap.nil "a".toList INT_MAX
    (by decide!) fuel r

/-- C20, amended: in 32-bit arithmetic, for a tree with ordered child maps, a non-negative
distance, a threshold `>= 0` and `dist + threshold < INT_MAX` for the distance `dist` from
every stored value to the query, `dmin`, `dmax` and the loop counter stay in range, the
loops terminate, and `find` returns what the search over the integers returns. -/
theorem find32_eq_find_of_lt (d : T → T → Int) (hnn : ∀ a b, 0 ≤ d a b) (t : BKNode T)
    (ho : BKNode.Ordered t) (q : T) (threshold : Int) (h0 : 0 ≤ threshold)
    (hfit : ∀ v ∈ BKNode.values t, d v q + threshold < INT_MAX) (fuel : Nat)
    (hf : BKNode.height t + (2 * threshold + 1).toNat < fuel) :
    BKNode.find32 d fuel t q threshold = Outcome.done (BKNode.find d t q threshold) := by
  apply BKNode.find32_eq_find d q threshold t ho _ fuel hf
  intro v hv
  have h1 := hfit v hv
  have h2 := hnn v q
  have h3 : INT_MIN = -2147483648 := rfl
  have h4 : INT_MAX = 2147483647 := rfl
  refine ⟨by omega, h1, by omega, by omega⟩

/-- The node "book" with the child "boo" under the key 1, the query "book", the threshold 1
and a budget of 10 steps. -/
theorem find32_eq_find_of_lt_witness :
    (∀ a b : List Char, 0 ≤ distance a b) ∧ (0 : Int) ≤ 1
      ∧ BKNode.find32 distance 10
          (BKNode.mk "book".toList (ChildMap.cons 1 (BKNode.leaf "boo".toList) ChildMap.nil))
          "book".toList 1
        = Outcome.done (BKNode.find distance
            (BKNode.mk "book".toList (ChildMap.cons 1 (BKNode.leaf "boo".toList) ChildMap.nil))
            "book".toList 1) :=
  ⟨distance_nonneg, by decide,
    find32_eq_find_of_lt distance distance_nonneg
      (BKNode.mk "book".toList (ChildMap.cons 1 (BKNode.leaf "boo".toList) ChildMap.nil))
      (by simp [BKNode.Ordered, ChildMap.Ordered, ChildMap.keys, BKNode.leaf])
      "book".toList 1 (by decide)
      (by
        intro v hv
        simp only [BKNode.values, ChildMap.values, BKNode.leaf, List.append_nil,
          List.mem_cons, List.mem_singleton, List.not_mem_nil, or_false] at hv
        rcases hv with hv | hv
        · rw [hv]; decide!
        · rw [hv]; decide!)
      10 (by decide)⟩

/-- C2, as the code behaves: with the metric `|a - b|` on the integers, the tree built from
0 and 1, the query 1 and the threshold `INT_MAX`, the element 1 is in `S` and within the
threshold, but at the root `dist + threshold = 1 + INT_MAX` overflows and no result is
returned. -/
theorem find32_metric_overflows :
    (∀ a b, 0 ≤ absDist a b) ∧ (∀ a b, absDist a b = absDist b a)
      ∧ (∀ a b, absDist a b = 0 ↔ a = b)
      ∧ (∀ a b c, absDist a c ≤ absDist a b + absDist b c)
      ∧ 0 ≤ INT_MAX ∧ (1 : Int) ∈ [0, 1] ∧ absDist 1 1 ≤ INT_MAX
      ∧ (∀ fuel : Nat, BKTree.find32 absDist (fuel + 1) (BKTree.build absDist [0, 1]) 1
          INT_MAX = Outcome.overflow) :=
  ⟨absDist_nonneg, absDist_comm, absDist_eq_zero, absDist_triangle, by decide, by decide,
    by decide, fun _ => rfl⟩

/-- C2, amended: for a distance function `d` that is non-negative, symmetric, zero exactly on
equal elements and satisfies the triangle inequality, a threshold `>= 0` and
`d(e, q) + threshold < INT_MAX` for every `e` of `S`, `find(q, threshold)` on the tree built
from `S` returns, in 32-bit arithmetic and given enough steps, a sequence whose elements are
exactly the elements `e` of `S` with `d(q, e) <= threshold`. -/
theorem find32_exact_of_metric (d : T → T → Int) (hnn : ∀ a b, 0 ≤ d a b)
    (hsymm : ∀ a b, d a b = d b a) (hzero : ∀ a b, d a b = 0 ↔ a = b)
    (htri : ∀ a b c, d a c ≤ d a b + d b c) (S : List T) (q : T) (threshold : Int)
    (hth : 0 ≤ threshold) (hfit : ∀ e ∈ S, d e q + threshold < INT_MAX) (fuel : Nat)
    (hf : BKTree.height (BKTree.build d S) + (2 * threshold + 1).toNat < fuel) :
    ∃ r, BKTree.find32 d fuel (BKTree.build d S) q threshold = Outcome.done r
      ∧ ∀ e, e ∈ r ↔ e ∈ S ∧ d q e ≤ threshold := by
  have hinv : BKTree.Inv d (BKTree.build d S) :=
    BKTree.inv_foldl d S BKTree.empty (BKTree.inv_empty d)
  have ho : BKTree.Ordered (BKTree.build d S) := BKTree.ordered_of_inv d _ hinv
  have hfits : Fits32 d q threshold (BKTree.values (BKTree.build d S)) := by
    intro v hv
    have hvS := (BKTree.mem_values_build d (fun a b => (hzero a b).mp) S v).mp hv
    have h1 := hfit v hvS
    have h2 := hnn v q
    have h3 : INT_MIN = -2147483648 := rfl
    have h4 : INT_MAX = 2147483647 := rfl
    exact ⟨by omega, by omega, by omega, h1⟩
  exact ⟨BKTree.find d (BKTree.build d S) q threshold,
    BKTree.find32_eq_find_root d q threshold _ ho hfits fuel hf,
    BKTree.mem_find_build_iff d hsymm hzero htri S q threshold⟩

/-- The metric search on the integers with `|a - b|` in 32-bit arithmetic: the tree built
from 5, 1, 9, 7, the query 6, the threshold 1 and a budget of 10 steps. -/
theorem find32_exact_of_metric_witness :
    (∀ a b, 0 ≤ absDist a b) ∧ (∀ a b, absDist a b = absDist b a)
      ∧ (∀ a b, absDist a b = 0 ↔ a = b)
      ∧ (∀ a b c, absDist a c ≤ absDist a b + absDist b c) ∧ (0 : Int) ≤ 1
      ∧ (∀ e ∈ [(5 : Int), 1, 9, 7], absDist e 6 + 1 < INT_MAX)
      ∧ BKTree.height (BKTree.build absDist [5, 1, 9, 7]) + (2 * (1 : Int) + 1).toNat < 10
      ∧ ∃ r, BKTree.find32 absDist 10 (BKTree.build absDist [5, 1, 9, 7]) 6 1
            = Outcome.done r
          ∧ ∀ e, e ∈ r ↔ e ∈ [(5 : Int), 1, 9, 7] ∧ absDist 6 e ≤ 1 :=
  ⟨absDist_nonneg, absDist_comm, absDist_eq_zero, absDist_triangle, by decide, by decide,
    by decide,
    find32_exact_of_metric absDist absDist_nonneg absDist_comm absDist_eq_zero
      absDist_triangle [5, 1, 9, 7] 6 1 (by decide) (by decide) 10 (by decide)⟩

/-- C13, as the code behaves: on the tree built from "a" and "b", `find("b", 0)` returns
"b", but with the larger threshold `INT_MAX` the root computes `1 + INT_MAX`, which
overflows, and no result containing "b" is returned. -/
theorem find32_mono_overflows :
    (0 : Int) ≤ INT_MAX
      ∧ BKTree.find32 distance 5 (stringTree ["a".toList, "b".toList]) "b".toList 0
          = Outcome.done ["b".toList]
      ∧ (∀ fuel : Nat, BKTree.find32 distance (fuel + 1)
          (stringTree ["a".toList, "b".toList]) "b".toList INT_MAX = Outcome.overflow) :=
  ⟨by decide, by decide!, fun _ => rfl⟩

/-- C13, amended: for every tree with ordered child maps, every query `q` and all integers
`threshold1 <= threshold2` such that, for both thresholds and the distance `dist` from every
stored value to `q`, `dist - threshold` and `dist + threshold` fit a 32-bit `int` and
`dist + threshold < INT_MAX`: both searches return, given enough steps, and every element
of `find(q, threshold1)` is an element of `find(q, threshold2)`. -/
theorem find32_threshold_mono (d : T → T → Int) (t : BKTree T) (ho : BKTree.Ordered t)
    (q : T) (threshold1 threshold2 : Int) (h : threshold1 ≤ threshold2)
    (h1 : Fits32 d q threshold1 (BKTree.values t))
    (h2 : Fits32 d q threshold2 (BKTree.values t)) (fuel1 fuel2 : Nat)
    (hf1 : BKTree.height t + (2 * threshold1 + 1).toNat < fuel1)
    (hf2 : BKTree.height t + (2 * threshold2 + 1).toNat < fuel2) :
    ∃ r1 r2, BKTree.find32 d fuel1 t q threshold1 = Outcome.done r1
      ∧ BKTree.find32 d fuel2 t q threshold2 = Outcome.done r2
      ∧ ∀ e, e ∈ r1 → e ∈ r2 :=
  ⟨BKTree.find d t q threshold1, BKTree.find d t q threshold2,
    BKTree.find32_eq_find_root d q threshold1 t ho h1 fuel1 hf1,
    BKTree.find32_eq_find_root d q threshold2 t ho h2 fuel2 hf2,
    fun e he => BKTree.find_subset_of_le d t q threshold1 threshold2 h e he⟩

/-- The tree built from "book", "boot", "boo", the query "book" and the thresholds 1 and 3,
with budgets of 20 steps. -/
theorem find32_threshold_mono_witness :
    BKTree.Ordered (stringTree ["book".toList, "boot".toList, "boo".toList])
      ∧ (1 : Int) ≤ 3
      ∧ Fits32 distance "book".toList 1
          (BKTree.values (stringTree ["book".toList, "boot".toList, "boo".toList]))
      ∧ Fits32 distance "book".toList 3
          (BKTree.values (stringTree ["book".toList, "boot".toList, "boo".toList]))
      ∧ ∃ r1 r2,
          BKTree.find32 distance 20 (stringTree ["book".toList, "boot".toList, "boo".toList])
              "book".toList 1 = Outcome.done r1
          ∧ BKTree.find32 distance 20
              (stringTree ["book".toList, "boot".toList, "boo".toList]) "book".toList 3
              = Outcome.done r2
          ∧ ∀ e, e ∈ r1 → e ∈ r2 :=
  ⟨BKTree.ordered_of_inv distance _ (stringTree_inv _), by decide,
    by unfold Fits32; decide!,
    by unfold Fits32; decide!,
    find32_threshold_mono distance (stringTree ["book".toList, "boot".toList, "boo".toList])
      (BKTree.ordered_of_inv distance _ (stringTree_inv _)) "book".toList 1 3 (by decide)
      (by unfold Fits32; decide!) (by unfold Fits32; decide!) 20 20 (by decide!)
      (by decide!)⟩

end SearchClaims

end BK
